import Mathlib

/-!
Verification of the territory-capture geometry engine of `main.py`
(a Qix-style game).  The Python code is shallowly embedded over exact
rational arithmetic: Python numbers (ints and floats) become `ℚ`.
The only irrational primitive the code uses is `math.sqrt` /
`math.hypot`; every definition that needs it is parametrised by an
abstract square-root function `sq : ℚ → ℚ` (applied to the squared
argument), so that all definitions stay executable and every theorem
holds for every interpretation of the square root, in particular the
true one.
-/

namespace PyxGame

/-- Play-field width, `WIDTH = 1920` in `main.py`. -/
def WIDTH : ℕ := 1920

/-- Play-field height, `HEIGHT = 1080` in `main.py`. -/
def HEIGHT : ℕ := 1080

/-- A point, as the Python pair `(x, y)`. -/
abbrev Pt := ℚ × ℚ

/-! ## `point_to_line_distance` (main.py lines 49-72)

`math.sqrt` is modelled by the abstract parameter `sq` applied to the
squared quantity; everything else is verbatim. -/

/-- Embedding of `point_to_line_distance(x, y, x1, y1, x2, y2)`. -/
def point_to_line_distance (sq : ℚ → ℚ) (x y x1 y1 x2 y2 : ℚ) : ℚ :=
  let A := x - x1
  let B := y - y1
  let C := x2 - x1
  let D := y2 - y1
  let dot := A * C + B * D
  let len_sq := C * C + D * D
  if len_sq = 0 then sq (A * A + B * B)
  else
    let param := dot / len_sq
    let xx := if param < 0 then x1 else if 1 < param then x2 else x1 + param * C
    let yy := if param < 0 then y1 else if 1 < param then y2 else y1 + param * D
    sq ((x - xx) ^ 2 + (y - yy) ^ 2)

/-! ## `calculate_area_percentage` (main.py lines 74-85) -/

/-- The shoelace sum `Σ (x_i * y_{i+1} - x_{i+1} * y_i)` over consecutive
pairs of `polygon` (not wrapping), as in the loop of
`calculate_area_percentage` and `Player.calculate_polygon_area`. -/
def shoelace_sum (polygon : List Pt) : ℚ :=
  (polygon.zip polygon.tail).foldl
    (fun area e => area + (e.1.1 * e.2.2 - e.2.1 * e.1.2)) 0

/-- Embedding of `Player.calculate_polygon_area` (main.py lines 230-234):
`abs(shoelace)/2`. -/
def calculate_polygon_area (polygon : List Pt) : ℚ :=
  |shoelace_sum polygon| / 2

/-- The accumulator `filled` of `calculate_area_percentage`: polygons with
fewer than 3 points are skipped, the others contribute `abs(area)/2`. -/
def filled_total (filled_areas : List (List Pt)) : ℚ :=
  filled_areas.foldl
    (fun filled polygon =>
      if polygon.length < 3 then filled
      else filled + |shoelace_sum polygon| / 2) 0

/-- Embedding of `calculate_area_percentage(filled_areas, total_area)`. -/
def calculate_area_percentage (filled_areas : List (List Pt)) (total_area : ℚ) : ℚ :=
  filled_total filled_areas / total_area * 100

/-! ## `point_in_polygon` (main.py lines 31-47)

The Python loop keeps `inside` and the variable `xinters`, which is only
assigned inside the guarded block when `p1y != p2y`; on the very first
iterations `xinters` is unbound.  The state below records `inside`, the
current binding of `xinters` (`none` = still unbound, exactly Python's
name state), and a flag `undefRead` that is set if the line
`if p1x == p2x or x <= xinters` ever reads `xinters` while unbound
(which in Python would raise `NameError`). -/

structure PipState where
  inside : Bool
  xinters : Option ℚ
  undefRead : Bool
  deriving Repr, DecidableEq

/-- One iteration of the `point_in_polygon` loop for the edge `(p1, p2)`
at query point `(x, y)`. -/
def pipEdge (x y : ℚ) (p1 p2 : Pt) (s : PipState) : PipState :=
  if y > min p1.2 p2.2 ∧ y ≤ max p1.2 p2.2 ∧ x ≤ max p1.1 p2.1 then
    let xi : Option ℚ :=
      if p1.2 ≠ p2.2 then some ((y - p1.2) * (p2.1 - p1.1) / (p2.2 - p1.2) + p1.1)
      else s.xinters
    if p1.1 = p2.1 then ⟨!s.inside, xi, s.undefRead⟩
    else
      match xi with
      | none => ⟨s.inside, none, true⟩
      | some v => ⟨if x ≤ v then !s.inside else s.inside, some v, s.undefRead⟩
  else s

/-- The list of directed edges the loop visits: `(polygon[i-1], polygon[i % n])`
for `i = 1..n`, i.e. consecutive pairs closing back to the first point. -/
def polyEdges (polygon : List Pt) : List (Pt × Pt) :=
  polygon.zip (polygon.rotate 1)

/-- The whole loop of `point_in_polygon`, returning the final state. -/
def pipFold (pt : Pt) (polygon : List Pt) : PipState :=
  (polyEdges polygon).foldl (fun s e => pipEdge pt.1 pt.2 e.1 e.2 s)
    ⟨false, none, false⟩

/-- Embedding of `point_in_polygon(point, polygon)`. -/
def point_in_polygon (pt : Pt) (polygon : List Pt) : Bool :=
  (pipFold pt polygon).inside

/-! ## Claim C9 -/

/-- C9: for every point `(x, y)` and every point `(a, b)`,
`point_to_line_distance((x,y), (a,b), (a,b))` equals the Euclidean
distance from `(x, y)` to `(a, b)` — the square root (here: the abstract
square-root model `sq`) of the squared distance. -/
theorem c9_zero_length_segment (sq : ℚ → ℚ) (x y a b : ℚ) :
    point_to_line_distance sq x y a b a b = sq ((x - a) * (x - a) + (y - b) * (y - b)) := by
  simp [point_to_line_distance]

/-! ## Claim C1 -/

/-- Every polygon's contribution to `filled` is non-negative, so
`filled_total` is monotone in its accumulator and non-negative. -/
theorem filled_total_nonneg_from (filled_areas : List (List Pt)) :
    ∀ a : ℚ, a ≤ filled_areas.foldl
      (fun filled polygon =>
        if polygon.length < 3 then filled
        else filled + |shoelace_sum polygon| / 2) a := by
  induction filled_areas with
  | nil => intro a; simp
  | cons p l ih =>
    intro a
    refine le_trans ?_ (ih _)
    by_cases h : p.length < 3
    · simp [h]
    · simp only [h, if_false]
      have : (0:ℚ) ≤ |shoelace_sum p| / 2 := by positivity
      linarith

theorem filled_total_nonneg (filled_areas : List (List Pt)) :
    0 ≤ filled_total filled_areas :=
  filled_total_nonneg_from filled_areas 0

/-- The claim C1 as stated is false: with a positive total area, the
percentage can exceed 100 when the summed polygon areas exceed the total
area (the polygons may overlap).  Here two copies of the full-field
rectangle (vertices inside the 1920×1080 play field) against the play
field's own total area give more than 199%. -/
theorem c1_counterexample :
    100 < calculate_area_percentage
      [[(0,0),(1919,0),(1919,1079),(0,1079),(0,0)],
       [(0,0),(1919,0),(1919,1079),(0,1079),(0,0)]]
      (1920 * 1080) := by
  norm_num [calculate_area_percentage, filled_total, shoelace_sum, List.zip, List.foldl]

/-- C1 (amended): for every list of filled polygons and every positive
total area, `calculate_area_percentage` is at least 0, and it is at most
100 exactly when the sum of the polygons' (absolute shoelace) areas is at
most the total area; overlapping polygons can push it above 100. -/
theorem c1_range (filled_areas : List (List Pt)) (total_area : ℚ)
    (h : 0 < total_area) :
    0 ≤ calculate_area_percentage filled_areas total_area ∧
      (calculate_area_percentage filled_areas total_area ≤ 100 ↔
        filled_total filled_areas ≤ total_area) := by
  have hf := filled_total_nonneg filled_areas
  constructor
  · have := div_nonneg hf h.le
    unfold calculate_area_percentage
    positivity
  · unfold calculate_area_percentage
    rw [mul_comm]
    constructor
    · intro hle
      have : filled_total filled_areas / total_area ≤ 1 := by linarith
      exact (div_le_one h).1 this
    · intro hle
      have : filled_total filled_areas / total_area ≤ 1 := (div_le_one h).2 hle
      linarith

/-- Witness for `c1_range` at a concrete input. -/
theorem c1_range_witness :
    0 ≤ calculate_area_percentage [[(0,0),(4,0),(4,4),(0,4),(0,0)]] 100 ∧
      (calculate_area_percentage [[(0,0),(4,0),(4,4),(0,4),(0,0)]] 100 ≤ 100 ↔
        filled_total [[(0,0),(4,0),(4,4),(0,4),(0,0)]] ≤ 100) :=
  c1_range [[(0,0),(4,0),(4,4),(0,4),(0,0)]] 100 (by norm_num)

/-! ## Claim C7 -/

/-- C7: appending one more polygon never decreases the coverage
percentage (for a positive total area): the new polygon contributes a
non-negative area to `filled`. -/
theorem c7_coverage_monotone (filled_areas : List (List Pt)) (polygon : List Pt)
    (total_area : ℚ) (h : 0 < total_area) :
    calculate_area_percentage filled_areas total_area ≤
      calculate_area_percentage (filled_areas ++ [polygon]) total_area := by
  unfold calculate_area_percentage
  have hmono : filled_total filled_areas ≤ filled_total (filled_areas ++ [polygon]) := by
    unfold filled_total
    rw [List.foldl_append]
    by_cases hp : polygon.length < 3
    · simp [hp]
    · simp only [List.foldl, hp, if_false]
      have : (0:ℚ) ≤ |shoelace_sum polygon| / 2 := by positivity
      linarith
  gcongr

/-- Witness for `c7_coverage_monotone` at a concrete input. -/
theorem c7_coverage_monotone_witness :
    calculate_area_percentage [[(0,0),(4,0),(4,4),(0,4),(0,0)]] 100 ≤
      calculate_area_percentage
        ([[(0,0),(4,0),(4,4),(0,4),(0,0)]] ++ [[(10,10),(12,10),(12,12),(10,12),(10,10)]]) 100 :=
  c7_coverage_monotone [[(0,0),(4,0),(4,4),(0,4),(0,0)]]
    [(10,10),(12,10),(12,12),(10,12),(10,10)] 100 (by norm_num)

/-! ## Analysis of one `point_in_polygon` iteration -/

/-- Inside the guarded block of the loop the edge cannot be horizontal:
`y > min` and `y ≤ max` force `min < max`. -/
theorem guard_imp_not_horizontal {x y : ℚ} {p1 p2 : Pt}
    (h : y > min p1.2 p2.2 ∧ y ≤ max p1.2 p2.2 ∧ x ≤ max p1.1 p2.1) :
    p1.2 ≠ p2.2 := by
  intro heq
  rcases h with ⟨h1, h2, -⟩
  rw [heq, min_self] at h1
  rw [heq, max_self] at h2
  exact absurd h2 (not_le.2 h1)

/-- A horizontal edge (equal y-coordinates) leaves the loop state
completely unchanged: the guard `y > min ∧ y ≤ max` can never hold. -/
theorem pipEdge_horizontal (x y : ℚ) (p1 p2 : Pt) (s : PipState)
    (h : p1.2 = p2.2) : pipEdge x y p1 p2 s = s := by
  unfold pipEdge
  rw [if_neg]
  intro hg
  exact guard_imp_not_horizontal hg h

/-- One loop iteration never reads an unbound `xinters`: whenever the
read is reached the edge is non-horizontal, so `xinters` was assigned in
the same iteration. -/
theorem pipEdge_undefRead (x y : ℚ) (p1 p2 : Pt) (s : PipState) :
    (pipEdge x y p1 p2 s).undefRead = s.undefRead := by
  unfold pipEdge
  by_cases h : y > min p1.2 p2.2 ∧ y ≤ max p1.2 p2.2 ∧ x ≤ max p1.1 p2.1
  · have hne : p1.2 ≠ p2.2 := guard_imp_not_horizontal h
    rw [if_pos h]
    simp only [hne, ne_eq, not_false_eq_true, ite_true]
    by_cases hx : p1.1 = p2.1
    · rw [if_pos hx]
    · rw [if_neg hx]
  · rw [if_neg h]

/-- The pure toggle decision of one loop iteration, as a function of the
edge only (no loop-carried state). -/
def pipToggle (x y : ℚ) (p1 p2 : Pt) : Bool :=
  decide (y > min p1.2 p2.2 ∧ y ≤ max p1.2 p2.2 ∧ x ≤ max p1.1 p2.1 ∧
    (p1.1 = p2.1 ∨ x ≤ (y - p1.2) * (p2.1 - p1.1) / (p2.2 - p1.2) + p1.1))

/-- The `inside` flag after one iteration is the previous flag xor-ed
with the pure toggle decision (the loop-carried `xinters` is irrelevant
to it). -/
theorem pipEdge_inside (x y : ℚ) (p1 p2 : Pt) (s : PipState) :
    (pipEdge x y p1 p2 s).inside = xor s.inside (pipToggle x y p1 p2) := by
  unfold pipEdge pipToggle
  by_cases h : y > min p1.2 p2.2 ∧ y ≤ max p1.2 p2.2 ∧ x ≤ max p1.1 p2.1
  · have hne : p1.2 ≠ p2.2 := guard_imp_not_horizontal h
    rw [if_pos h]
    simp only [hne, ne_eq, not_false_eq_true, ite_true]
    by_cases hx : p1.1 = p2.1
    · have hmax : x ≤ p2.1 := by
        have h3 := h.2.2
        rwa [hx, max_self] at h3
      simp [hx, h.1, h.2.1, h.2.2, hmax]
    · rw [if_neg hx]
      by_cases hle : x ≤ (y - p1.2) * (p2.1 - p1.1) / (p2.2 - p1.2) + p1.1
      · simp [hle, h.1, h.2.1, h.2.2, hx]
      · simp [hle, h.1, h.2.1, h.2.2, hx]
  · rw [if_neg h]
    rcases not_and_or.1 h with h1 | h12
    · simp [h1]
    · rcases not_and_or.1 h12 with h2 | h3
      · simp [h2]
      · simp [h3]

/-- The loop never sets the undefined-read flag, whatever the initial
state. -/
theorem pipFoldl_undefRead (x y : ℚ) (edges : List (Pt × Pt)) :
    ∀ s : PipState,
      (edges.foldl (fun s e => pipEdge x y e.1 e.2 s) s).undefRead = s.undefRead := by
  induction edges with
  | nil => intro s; rfl
  | cons e l ih =>
    intro s
    rw [List.foldl_cons, ih, pipEdge_undefRead]

/-! ## Claim C4 -/

/-- C4: for every polygon and query point, (a) the run of
`point_in_polygon` never reads `xinters` before assigning it in the same
iteration (the undefined-read flag stays `false`), and (b) an edge with
equal y-coordinates never toggles the inside flag (it leaves the loop
state unchanged). -/
theorem c4_horizontal_edges_and_xinters (pt : Pt) (polygon : List Pt) :
    (pipFold pt polygon).undefRead = false ∧
      ∀ p1 p2 : Pt, ∀ s : PipState, p1.2 = p2.2 →
        pipEdge pt.1 pt.2 p1 p2 s = s := by
  constructor
  · unfold pipFold
    rw [pipFoldl_undefRead]
  · intro p1 p2 s h
    exact pipEdge_horizontal pt.1 pt.2 p1 p2 s h

/-- Witness for `c4_horizontal_edges_and_xinters` at a concrete polygon,
point and horizontal edge. -/
theorem c4_horizontal_edges_and_xinters_witness :
    (pipFold (1, 1) [(0,0),(3,0),(3,3),(0,3)]).undefRead = false ∧
      pipEdge 1 1 (0, 5) (3, 5) ⟨false, none, false⟩ = ⟨false, none, false⟩ :=
  ⟨(c4_horizontal_edges_and_xinters (1, 1) [(0,0),(3,0),(3,3),(0,3)]).1,
    (c4_horizontal_edges_and_xinters (1, 1) [(0,0),(3,0),(3,3),(0,3)]).2
      (0, 5) (3, 5) ⟨false, none, false⟩ rfl⟩

/-! ## The player aggregate (class `Player`, main.py lines 93-364)

Fields that only feed rendering (`sparks`, `color_offset`, `thickness`)
are omitted: no geometry function reads them.  `speed` is the constant 4
and is never mutated, so it is kept as a constant. -/

/-- The four movement directions of `current_direction`. -/
inductive Dir
  | up
  | down
  | left
  | right
  deriving DecidableEq, Repr

/-- The four boundary sides returned by `get_boundary_side`. -/
inductive Side
  | top
  | right
  | bottom
  | left
  deriving DecidableEq, Repr

/-- The player speed, `self.speed = 4`. -/
def speed : ℚ := 4

/-- The mutable state of the `Player` object. -/
structure Player where
  x : ℚ
  y : ℚ
  drawing : Bool
  temp_points : List Pt
  filled_areas : List (List Pt)
  current_direction : Option Dir
  boundary_points : List Pt
  deriving DecidableEq, Repr

/-- Embedding of `Player.generate_boundary_points`: top row left→right,
right column top→bottom, bottom row right→left, left column bottom→top,
one point per pixel, no duplicated corners. -/
def generate_boundary_points : List Pt :=
  ((List.range WIDTH).map fun x : ℕ => ((x:ℚ), (0:ℚ))) ++
    ((List.range' 1 (HEIGHT - 1)).map fun y : ℕ => ((WIDTH:ℚ) - 1, (y:ℚ))) ++
    ((List.range (WIDTH - 1)).reverse.map fun x : ℕ => ((x:ℚ), (HEIGHT:ℚ) - 1)) ++
    ((List.range' 1 (HEIGHT - 2)).reverse.map fun y : ℕ => ((0:ℚ), (y:ℚ)))

/-- Embedding of `Player.is_on_boundary(x, y)`: exact membership in the
boundary point list, or distance at most 2 from some edge of some filled
area. -/
def is_on_boundary (sq : ℚ → ℚ) (s : Player) (x y : ℚ) : Bool :=
  s.boundary_points.any (fun q => decide ((x, y) = q)) ||
    s.filled_areas.any (fun area =>
      (area.zip area.tail).any (fun e =>
        decide (point_to_line_distance sq x y e.1.1 e.1.2 e.2.1 e.2.2 ≤ 2)))

/-- Embedding of `Player.is_valid_move(new_x, new_y)`: off the combined
boundary and while drawing, the new point must not coincide with any
trace point except the last five. -/
def is_valid_move (sq : ℚ → ℚ) (s : Player) (nx ny : ℚ) : Bool :=
  if is_on_boundary sq s nx ny then true
  else if s.drawing then
    !((s.temp_points.take (s.temp_points.length - 5)).any
      (fun q => decide (q = (nx, ny))))
  else true

/-- Embedding of `Player.start_drawing`. -/
def start_drawing (sq : ℚ → ℚ) (s : Player) : Player :=
  if s.drawing = false ∧ is_on_boundary sq s s.x s.y then
    { s with drawing := true, temp_points := [(s.x, s.y)], current_direction := none }
  else s

/-- Embedding of the local `get_boundary_side` of `stop_drawing`
(tolerance 2 per side, tested in the order top, right, bottom, left). -/
def get_boundary_side (p : Pt) : Option Side :=
  if |p.2 - 0| < 2 then some .top
  else if |p.1 - ((WIDTH:ℚ) - 1)| < 2 then some .right
  else if |p.2 - ((HEIGHT:ℚ) - 1)| < 2 then some .bottom
  else if |p.1 - 0| < 2 then some .left
  else none

/-- The `desired_corners` table of `stop_drawing`: the rectangle corner
incident to an unordered pair of distinct adjacent sides; opposite sides
are absent from the table (`dict.get` returns `None`). -/
def corner_of_sides (s1 s2 : Side) : Option Pt :=
  match s1, s2 with
  | .left, .top | .top, .left => some (0, 0)
  | .top, .right | .right, .top => some ((WIDTH:ℚ) - 1, 0)
  | .right, .bottom | .bottom, .right => some ((WIDTH:ℚ) - 1, (HEIGHT:ℚ) - 1)
  | .bottom, .left | .left, .bottom => some (0, (HEIGHT:ℚ) - 1)
  | _, _ => none

/-- The `desired_corner` computation of `stop_drawing`: only when both
endpoints classify to some side and the sides differ. -/
def desired_corner_of (p q : Pt) : Option Pt :=
  match get_boundary_side p, get_boundary_side q with
  | some s1, some s2 => if s1 ≠ s2 then corner_of_sides s1 s2 else none
  | _, _ => none

/-- The `enumerate` loop of `find_index_in_boundary`, carrying the next
index. -/
def find_index_go (p : Pt) : List Pt → ℕ → Option ℕ
  | [], _ => none
  | q :: rest, i =>
    if |q.1 - p.1| < 1 ∧ |q.2 - p.2| < 1 then some i
    else find_index_go p rest (i + 1)

/-- Embedding of the local `find_index_in_boundary` of `stop_drawing`:
index of the first boundary point within tolerance 1 per coordinate. -/
def find_index_in_boundary (bp : List Pt) (p : Pt) : Option ℕ :=
  find_index_go p bp 0

/-- Embedding of the local `contains_point` of `stop_drawing`. -/
def contains_point (segment : List Pt) (p : Pt) : Bool :=
  segment.any (fun q => decide (|q.1 - p.1| < 1 ∧ |q.2 - p.2| < 1))

/-- First candidate boundary arc `seg1` of `stop_drawing`
(`bp[start:end+1]`, wrapping if `start > end`). -/
def seg1_of (bp : List Pt) (start_index end_index : ℕ) : List Pt :=
  if start_index ≤ end_index then (bp.take (end_index + 1)).drop start_index
  else bp.drop start_index ++ bp.take (end_index + 1)

/-- Second candidate boundary arc `seg2` of `stop_drawing` (the
complementary arc). -/
def seg2_of (bp : List Pt) (start_index end_index : ℕ) : List Pt :=
  if start_index ≤ end_index then bp.drop end_index ++ bp.take (start_index + 1)
  else (bp.take (start_index + 1)).drop end_index

/-- The `chosen_segment` selection of `stop_drawing`: the arc containing
the desired corner when one was computed, otherwise the arc with fewer
points. -/
def chosen_segment_of (bp : List Pt) (start_index end_index : ℕ)
    (desired_corner : Option Pt) : List Pt :=
  match desired_corner with
  | some c =>
    if contains_point (seg1_of bp start_index end_index) c then
      seg1_of bp start_index end_index
    else seg2_of bp start_index end_index
  | none =>
    if (seg1_of bp start_index end_index).length <
        (seg2_of bp start_index end_index).length then
      seg1_of bp start_index end_index
    else seg2_of bp start_index end_index

/-- Embedding of `Player.stop_drawing` (main.py lines 236-364).  The
reads `temp_points[0]`, `temp_points[-1]` and `final_polygon[0]` are
infallible because the guard ensures more than 2 trace points, so they
are modelled with `headD`/`getLastD` (the defaults are never used). -/
def stop_drawing (sq : ℚ → ℚ) (s : Player) : Player :=
  if s.drawing = false ∨ s.temp_points.length ≤ 2 then s
  else
    let start_point := s.temp_points.headD (0, 0)
    let end_point := s.temp_points.getLastD (0, 0)
    let desired_corner := desired_corner_of start_point end_point
    match find_index_in_boundary s.boundary_points start_point,
        find_index_in_boundary s.boundary_points end_point with
    | some start_index, some end_index =>
      let chosen_segment :=
        chosen_segment_of s.boundary_points start_index end_index desired_corner
      let polygon1 := s.temp_points ++ chosen_segment.reverse
      let polygon2 := s.temp_points.reverse ++ chosen_segment
      let mid_x := (start_point.1 + end_point.1) / 2
      let mid_y := (start_point.2 + end_point.2) / 2
      let test_point : Pt :=
        match desired_corner with
        | some c =>
          let vec_x := c.1 - mid_x
          let vec_y := c.2 - mid_y
          let length := sq (vec_x * vec_x + vec_y * vec_y)
          if length ≠ 0 then (mid_x + vec_x / length * 5, mid_y + vec_y / length * 5)
          else (mid_x + 0, mid_y + 0)
        | none =>
          let dx := end_point.2 - start_point.2
          let dy := start_point.1 - end_point.1
          let length := sq (dx * dx + dy * dy)
          if length = 0 then (mid_x + 0, mid_y + 0)
          else (mid_x + dx / length * 5, mid_y + dy / length * 5)
      let final_polygon :=
        if point_in_polygon test_point polygon1 then polygon1
        else if point_in_polygon test_point polygon2 then polygon2
        else if calculate_polygon_area polygon1 < calculate_polygon_area polygon2 then
          polygon1
        else polygon2
      { s with
        filled_areas := s.filled_areas ++ [final_polygon ++ [final_polygon.headD (0, 0)]],
        drawing := false,
        temp_points := [],
        current_direction := none,
        boundary_points := generate_boundary_points }
    | _, _ =>
      { s with
        filled_areas := s.filled_areas ++ [s.temp_points ++ [start_point]],
        drawing := false,
        temp_points := [],
        current_direction := none }

/-! ## Claim C10 -/

/-- C10: when drawing is off or the trace has at most 2 points,
`stop_drawing` is a complete no-op: the resulting state (every field,
including `filled_areas`, `temp_points`, `drawing`, `current_direction`
and `boundary_points`) is exactly the input state. -/
theorem c10_short_trace_noop (sq : ℚ → ℚ) (s : Player)
    (h : s.drawing = false ∨ s.temp_points.length ≤ 2) :
    stop_drawing sq s = s := by
  unfold stop_drawing
  rw [if_pos h]

/-- Witness for `c10_short_trace_noop`: a drawing session with 2 trace
points is left fully intact, drawing still on and trace retained. -/
theorem c10_short_trace_noop_witness :
    stop_drawing id
      { x := 4, y := 0, drawing := true, temp_points := [(0,0),(4,0)],
        filled_areas := [], current_direction := some .right,
        boundary_points := [(0,0)] } =
      { x := 4, y := 0, drawing := true, temp_points := [(0,0),(4,0)],
        filled_areas := [], current_direction := some .right,
        boundary_points := [(0,0)] } :=
  c10_short_trace_noop id _ (Or.inr (by decide))

/-! ## Claim C2 -/

/-- The claim C2 as stated is false: on a player state that is drawing
with a trace of at most 2 points, `stop_drawing` returns early and the
trace is retained (and drawing stays on) — e.g. when a collision aborts
a freshly started drawing session. -/
theorem c2_counterexample :
    (stop_drawing id
        { x := 0, y := 0, drawing := true, temp_points := [(0,0)],
          filled_areas := [], current_direction := none,
          boundary_points := [(0,0)] }).temp_points ≠ [] ∧
      (stop_drawing id
        { x := 0, y := 0, drawing := true, temp_points := [(0,0)],
          filled_areas := [], current_direction := none,
          boundary_points := [(0,0)] }).drawing = true := by
  rw [c10_short_trace_noop id _ (Or.inr (by decide))]
  exact ⟨by decide, rfl⟩

/-- C2 (amended): whenever drawing stops through `stop_drawing` on a
trace of more than 2 points — whether by successful closure or by
collision abort — the trace is consumed (emptied) and drawing is off.
(With 2 or fewer trace points `stop_drawing` is a no-op instead.) -/
theorem c2_trace_consumed (sq : ℚ → ℚ) (s : Player)
    (hd : s.drawing = true) (hl : 2 < s.temp_points.length) :
    (stop_drawing sq s).temp_points = [] ∧ (stop_drawing sq s).drawing = false := by
  have hcond : ¬(s.drawing = false ∨ s.temp_points.length ≤ 2) := by
    simp only [hd, not_or]
    exact ⟨by decide, by omega⟩
  unfold stop_drawing
  rw [if_neg hcond]
  rcases h1 : find_index_in_boundary s.boundary_points (s.temp_points.headD (0, 0)) with
    _ | start_index <;>
    rcases h2 : find_index_in_boundary s.boundary_points (s.temp_points.getLastD (0, 0)) with
      _ | end_index <;>
    simp only [h1, h2] <;> refine ⟨?_, ?_⟩ <;> trivial

/-- Witness for `c2_trace_consumed` at a concrete drawing state. -/
theorem c2_trace_consumed_witness :
    (stop_drawing id
        { x := 8, y := 100, drawing := true,
          temp_points := [(100,100),(104,100),(108,100)],
          filled_areas := [], current_direction := some .right,
          boundary_points := [] }).temp_points = [] ∧
      (stop_drawing id
        { x := 8, y := 100, drawing := true,
          temp_points := [(100,100),(104,100),(108,100)],
          filled_areas := [], current_direction := some .right,
          boundary_points := [] }).drawing = false :=
  c2_trace_consumed id _ rfl (by decide)

/-! ## Claim C8 -/

/-- C8: when the trace has more than 2 points but either endpoint cannot
be resolved to a boundary index, `stop_drawing` performs the documented
fallback: it appends exactly the trace followed by a repeat of its start
point to `filled_areas`, empties the trace, and turns drawing off. -/
theorem c8_resolution_fallback (sq : ℚ → ℚ) (s : Player)
    (hd : s.drawing = true) (hl : 2 < s.temp_points.length)
    (hn : find_index_in_boundary s.boundary_points (s.temp_points.headD (0, 0)) = none ∨
      find_index_in_boundary s.boundary_points (s.temp_points.getLastD (0, 0)) = none) :
    stop_drawing sq s =
      { s with
        filled_areas :=
          s.filled_areas ++ [s.temp_points ++ [s.temp_points.headD (0, 0)]],
        drawing := false,
        temp_points := [],
        current_direction := none } := by
  have hcond : ¬(s.drawing = false ∨ s.temp_points.length ≤ 2) := by
    simp only [hd, not_or]
    exact ⟨by decide, by omega⟩
  unfold stop_drawing
  rw [if_neg hcond]
  rcases h1 : find_index_in_boundary s.boundary_points (s.temp_points.headD (0, 0)) with
    _ | start_index <;>
    rcases h2 : find_index_in_boundary s.boundary_points (s.temp_points.getLastD (0, 0)) with
      _ | end_index <;>
    simp only [h1, h2] <;> try rfl
  rw [h1, h2] at hn
  simp at hn

/-- Witness for `c8_resolution_fallback`: a trace whose endpoints are
nowhere near the (here deliberately tiny) boundary list. -/
theorem c8_resolution_fallback_witness :
    stop_drawing id
        { x := 108, y := 100, drawing := true,
          temp_points := [(100,100),(104,100),(108,100)],
          filled_areas := [], current_direction := some .right,
          boundary_points := [(0,0)] } =
      { x := 108, y := 100, drawing := false,
        temp_points := [],
        filled_areas := [[(100,100),(104,100),(108,100),(100,100)]],
        current_direction := none,
        boundary_points := [(0,0)] } := by
  rw [c8_resolution_fallback id _ rfl (by decide)
    (Or.inl (by norm_num [find_index_in_boundary, find_index_go]))]
  rfl

/-! ## Claim C3 -/

theorem getElem_mem_take (bp : List Pt) (k m : ℕ) (hk : k < bp.length)
    (hkm : k < m) : bp[k] ∈ bp.take m := by
  have hlen : k < (bp.take m).length := by
    rw [List.length_take]
    exact lt_min hkm hk
  have heq : (bp.take m)[k] = bp[k] := List.getElem_take bp
  exact heq ▸ List.getElem_mem hlen

theorem getElem_mem_drop (bp : List Pt) (k n : ℕ) (hk : k < bp.length)
    (hnk : n ≤ k) : bp[k] ∈ bp.drop n := by
  have hlen : k - n < (bp.drop n).length := by
    rw [List.length_drop]
    omega
  have h1 : (bp.drop n)[k - n] = bp[k] := by
    rw [List.getElem_drop bp]
    congr 1
    omega
  exact h1 ▸ List.getElem_mem hlen

theorem getElem_mem_drop_take (bp : List Pt) (k n m : ℕ) (hk : k < bp.length)
    (hnk : n ≤ k) (hkm : k < m) : bp[k] ∈ (bp.take m).drop n := by
  have hlen : k < (bp.take m).length := by
    rw [List.length_take]
    exact lt_min hkm hk
  have heq : (bp.take m)[k] = bp[k] := List.getElem_take bp
  exact heq ▸ getElem_mem_drop (bp.take m) k n hlen hnk

/-- The two candidate arcs jointly cover every boundary point: any
element of `bp` lies in `seg1` or in `seg2`. -/
theorem mem_seg1_or_seg2 (bp : List Pt) (si ei : ℕ)
    (hsi : si < bp.length) (hei : ei < bp.length) :
    ∀ q ∈ bp, q ∈ seg1_of bp si ei ∨ q ∈ seg2_of bp si ei := by
  intro q hq
  obtain ⟨k, hk, rfl⟩ := List.mem_iff_getElem.1 hq
  rcases le_or_lt si ei with hle | hlt
  · rw [seg1_of, if_pos hle, seg2_of, if_pos hle]
    rcases lt_or_le k si with hk1 | hk1
    · exact Or.inr (List.mem_append.2 (Or.inr (getElem_mem_take bp k (si + 1) hk (by omega))))
    · rcases le_or_lt k ei with hk2 | hk2
      · exact Or.inl (getElem_mem_drop_take bp k si (ei + 1) hk hk1 (by omega))
      · exact Or.inr (List.mem_append.2 (Or.inl (getElem_mem_drop bp k ei hk (by omega))))
  · rw [seg1_of, if_neg (by omega), seg2_of, if_neg (by omega)]
    rcases le_or_lt si k with hk1 | hk1
    · exact Or.inl (List.mem_append.2 (Or.inl (getElem_mem_drop bp k si hk hk1)))
    · rcases le_or_lt k ei with hk2 | hk2
      · exact Or.inl (List.mem_append.2 (Or.inr (getElem_mem_take bp k (ei + 1) hk (by omega))))
      · exact Or.inr (getElem_mem_drop_take bp k ei (si + 1) hk (by omega) (by omega))

/-- The claim C3 as stated is false: two endpoints may classify to two
different boundary sides with no desired corner computed — opposite
sides (here top and bottom) are not in the `desired_corners` table, so
`dict.get` yields `None` and the fewer-points fallback is used. -/
theorem c3_counterexample :
    ¬ ∀ p q : Pt, (get_boundary_side p).isSome → (get_boundary_side q).isSome →
      get_boundary_side p ≠ get_boundary_side q → (desired_corner_of p q).isSome := by
  intro h
  have h1 : get_boundary_side ((5:ℚ), (0:ℚ)) = some Side.top := by
    norm_num [get_boundary_side, WIDTH, HEIGHT]
  have h2 : get_boundary_side ((5:ℚ), (1079:ℚ)) = some Side.bottom := by
    norm_num [get_boundary_side, WIDTH, HEIGHT]
  have h3 : desired_corner_of ((5:ℚ), (0:ℚ)) ((5:ℚ), (1079:ℚ)) = none := by
    unfold desired_corner_of
    rw [h1, h2]
    rfl
  have h4 := h ((5:ℚ), (0:ℚ)) ((5:ℚ), (1079:ℚ)) (by rw [h1]; rfl) (by rw [h2]; rfl)
    (by rw [h1, h2]; decide)
  rw [h3] at h4
  exact absurd h4 (by decide)

/-- C3 (amended): in the arc selection of `stop_drawing`, whenever a
desired corner was computed (the two sides are adjacent) and the corner
lies within tolerance 1 per coordinate of some boundary point, the
chosen arc contains the desired corner; whenever no desired corner was
computed (same side, unclassified endpoint, or opposite sides), the arc
with fewer points is chosen (`seg2` on ties). -/
theorem c3_chosen_arc (bp : List Pt) (si ei : ℕ) (c : Pt)
    (hsi : si < bp.length) (hei : ei < bp.length) :
    ((∃ q ∈ bp, |q.1 - c.1| < 1 ∧ |q.2 - c.2| < 1) →
      contains_point (chosen_segment_of bp si ei (some c)) c = true) ∧
    ((chosen_segment_of bp si ei none = seg1_of bp si ei ∧
        (seg1_of bp si ei).length < (seg2_of bp si ei).length) ∨
      (chosen_segment_of bp si ei none = seg2_of bp si ei ∧
        (seg2_of bp si ei).length ≤ (seg1_of bp si ei).length)) := by
  constructor
  · rintro ⟨q, hq, hq1, hq2⟩
    simp only [chosen_segment_of]
    by_cases hcont : contains_point (seg1_of bp si ei) c = true
    · rw [if_pos hcont]
      exact hcont
    · rw [if_neg hcont]
      rcases mem_seg1_or_seg2 bp si ei hsi hei q hq with hmem | hmem
      · exact absurd (List.any_eq_true.2 ⟨q, hmem, by simp [hq1, hq2]⟩) hcont
      · exact List.any_eq_true.2 ⟨q, hmem, by simp [hq1, hq2]⟩
  · simp only [chosen_segment_of]
    by_cases hlen : (seg1_of bp si ei).length < (seg2_of bp si ei).length
    · exact Or.inl ⟨by rw [if_pos hlen], hlen⟩
    · exact Or.inr ⟨by rw [if_neg hlen], by omega⟩

/-- Witness for `c3_chosen_arc`: with a three-point boundary list, indices
0 and 1 and desired corner `(0,0)`, the chosen arc is `seg2`, which
contains the corner (while `seg1` does not). -/
theorem c3_chosen_arc_witness :
    contains_point
      (chosen_segment_of [(5,0),(0,5),(0,0)] 0 1 (some (0,0))) (0,0) = true :=
  (c3_chosen_arc [(5,0),(0,5),(0,0)] 0 1 (0,0) (by norm_num) (by norm_num)).1
    ⟨(0,0), by simp, by norm_num, by norm_num⟩

/-! ## `Player.move` (main.py lines 147-198) and reachability

`Player.move` is modelled as a partial function: the read
`self.temp_points[0]` in the boundary-stop check would raise `IndexError`
on an empty trace, so the model returns `none` in that case (it is
unreachable from reachable drawing states).  Spark creation (`random`)
only affects the omitted rendering state and is dropped. -/

/-- The `new_direction` computed from the raw input (only meaningful when
some input is non-zero; `none` for zero input, a case the code guards
out). -/
def new_direction_of (dx dy : ℚ) : Option Dir :=
  if dx > 0 then some .right
  else if dx < 0 then some .left
  else if dy > 0 then some .down
  else if dy < 0 then some .up
  else none

/-- Whether switching from `d` to `nd` is a 90-degree turn. -/
def is_turn (d nd : Dir) : Bool :=
  match d, nd with
  | .left, .up | .left, .down | .right, .up | .right, .down => true
  | .up, .left | .up, .right | .down, .left | .down, .right => true
  | _, _ => false

/-- The direction update at the top of `Player.move` while drawing: on
non-zero input compute `new_direction`; adopt it if there was no current
direction, or if it is a 90-degree turn; otherwise keep the current
direction. -/
def updated_direction (cd : Option Dir) (dx dy : ℚ) : Option Dir :=
  if dx ≠ 0 ∨ dy ≠ 0 then
    match new_direction_of dx dy with
    | some nd =>
      match cd with
      | some d => if is_turn d nd then some nd else some d
      | none => some nd
    | none => cd
  else cd

/-- The movement override: a unit vector for each locked direction; with
no direction yet, the raw input is used unchanged. -/
def dir_vector (cd : Option Dir) (dx dy : ℚ) : ℚ × ℚ :=
  match cd with
  | some .up => (0, -1)
  | some .down => (0, 1)
  | some .left => (-1, 0)
  | some .right => (1, 0)
  | none => (dx, dy)

/-- Embedding of `Player.move(dx, dy)`.  While drawing: update the
direction, apply the override, move and append if the move is valid, then
stop drawing if the new point is on the boundary and differs from the
trace start (`temp_points[0]`; `none` models the `IndexError` on an empty
trace).  While not drawing: move only along the combined boundary. -/
def move (sq : ℚ → ℚ) (dx dy : ℚ) (s : Player) : Option Player :=
  if s.drawing then
    let cd := updated_direction s.current_direction dx dy
    let v := dir_vector cd dx dy
    let new_x := s.x + v.1 * speed
    let new_y := s.y + v.2 * speed
    let s1 :=
      if is_valid_move sq s new_x new_y then
        { s with x := new_x, y := new_y,
                 temp_points := s.temp_points ++ [(new_x, new_y)],
                 current_direction := cd }
      else { s with current_direction := cd }
    if is_on_boundary sq s1 new_x new_y then
      match s1.temp_points.head? with
      | none => none
      | some p0 =>
        if (new_x, new_y) ≠ p0 then some (stop_drawing sq s1) else some s1
    else some s1
  else
    let new_x := s.x + dx * speed
    let new_y := s.y + dy * speed
    if is_on_boundary sq s new_x new_y then some { s with x := new_x, y := new_y }
    else some s

/-- The player constructed by `Player.__init__`. -/
def initialPlayer : Player :=
  { x := 0, y := 0, drawing := false, temp_points := [], filled_areas := [],
    current_direction := none, boundary_points := generate_boundary_points }

/-- One frame-step of the main loop acting on the player: a move with key
inputs in {-1, 0, 1}, starting to draw (spacebar), or stopping (collision
abort). -/
inductive GameStep (sq : ℚ → ℚ) : Player → Player → Prop
  | move (dx dy : ℚ) (s s2 : Player) :
      (dx = 0 ∨ dx = 1 ∨ dx = -1) → (dy = 0 ∨ dy = 1 ∨ dy = -1) →
      move sq dx dy s = some s2 → GameStep sq s s2
  | start (s : Player) : GameStep sq s (start_drawing sq s)
  | stop (s : Player) : GameStep sq s (stop_drawing sq s)

/-- States the game can reach from the initial player. -/
def Reachable (sq : ℚ → ℚ) (s : Player) : Prop :=
  Relation.ReflTransGen (GameStep sq) initialPlayer s

/-- An axis-aligned step of magnitude exactly 4 (the player speed). -/
def axis4 (a b : Pt) : Prop :=
  (a.1 = b.1 ∧ |b.2 - a.2| = 4) ∨ (a.2 = b.2 ∧ |b.1 - a.1| = 4)

/-- A trace step as the code actually produces it: either a repeated
point (zero step) or an axis-aligned step of magnitude 4. -/
def stepOk (a b : Pt) : Prop := b = a ∨ axis4 a b

/-- The inductive invariant: the boundary point list always equals the
freshly generated curve, and while drawing the trace is non-empty, ends
at the player position, makes only `stepOk` steps, and starts on the
combined boundary. -/
def PlayerInv (sq : ℚ → ℚ) (s : Player) : Prop :=
  s.boundary_points = generate_boundary_points ∧
  (s.drawing = true →
    s.temp_points ≠ [] ∧
    s.temp_points.getLast? = some (s.x, s.y) ∧
    List.Chain' stepOk s.temp_points ∧
    (∀ h ∈ s.temp_points.head?, is_on_boundary sq s h.1 h.2 = true))

/-- `is_on_boundary` only reads `boundary_points` and `filled_areas`. -/
theorem is_on_boundary_congr (sq : ℚ → ℚ) (s t : Player)
    (hb : s.boundary_points = t.boundary_points)
    (hf : s.filled_areas = t.filled_areas) (x y : ℚ) :
    is_on_boundary sq s x y = is_on_boundary sq t x y := by
  unfold is_on_boundary
  rw [hb, hf]

/-- With non-zero input, `new_direction` is always assigned. -/
theorem new_direction_of_isSome (dx dy : ℚ) (h : dx ≠ 0 ∨ dy ≠ 0) :
    (new_direction_of dx dy).isSome = true := by
  unfold new_direction_of
  rcases lt_trichotomy dx 0 with h1 | h1 | h1
  · rw [if_neg (by linarith), if_pos h1]; rfl
  · subst h1
    rw [if_neg (by linarith), if_neg (by linarith)]
    rcases lt_trichotomy dy 0 with h2 | h2 | h2
    · rw [if_neg (by linarith), if_pos h2]; rfl
    · exact absurd h2 (by rcases h with h | h <;> simp_all)
    · rw [if_pos h2]; rfl
  · rw [if_pos h1]; rfl

/-- After the direction update, the override vector is the zero vector
(no direction yet and no input) or one of the four unit vectors. -/
theorem dir_vector_cases (cd₀ : Option Dir) (dx dy : ℚ) :
    dir_vector (updated_direction cd₀ dx dy) dx dy = (0, 0) ∨
    dir_vector (updated_direction cd₀ dx dy) dx dy = (0, -1) ∨
    dir_vector (updated_direction cd₀ dx dy) dx dy = (0, 1) ∨
    dir_vector (updated_direction cd₀ dx dy) dx dy = (-1, 0) ∨
    dir_vector (updated_direction cd₀ dx dy) dx dy = (1, 0) := by
  rcases hcd : updated_direction cd₀ dx dy with _ | d
  · left
    unfold updated_direction at hcd
    by_cases hg : dx ≠ 0 ∨ dy ≠ 0
    · rw [if_pos hg] at hcd
      rcases hnd : new_direction_of dx dy with _ | nd
      · exact absurd (hnd ▸ new_direction_of_isSome dx dy hg) (by simp)
      · rw [hnd] at hcd
        rcases cd₀ with _ | d₀
        · exact absurd hcd (by simp)
        · by_cases ht : is_turn d₀ nd = true <;> simp [ht] at hcd
    · rw [if_neg hg] at hcd
      push_neg at hg
      rw [hg.1, hg.2]
      rfl
  · cases d
    · right; left; rfl
    · right; right; left; rfl
    · right; right; right; left; rfl
    · right; right; right; right; rfl

/-- The basic shape of a committed step. -/
theorem stepOk_add (a b u v : ℚ)
    (h : (u = 0 ∧ v = 0) ∨ (u = 0 ∧ |v * speed| = 4) ∨ (v = 0 ∧ |u * speed| = 4)) :
    stepOk (a, b) (a + u * speed, b + v * speed) := by
  rcases h with ⟨h1, h2⟩ | ⟨h1, h2⟩ | ⟨h1, h2⟩
  · left
    rw [h1, h2]
    simp [Prod.ext_iff]
  · right; left
    refine ⟨by simp [h1], ?_⟩
    rw [show b + v * speed - b = v * speed by ring]
    exact h2
  · right; right
    refine ⟨by simp [h1], ?_⟩
    rw [show a + u * speed - a = u * speed by ring]
    exact h2

/-- The appended trace point is always a `stepOk` step from the player
position. -/
theorem stepOk_of_dir (cd₀ : Option Dir) (dx dy a b : ℚ) :
    stepOk (a, b)
      (a + (dir_vector (updated_direction cd₀ dx dy) dx dy).1 * speed,
       b + (dir_vector (updated_direction cd₀ dx dy) dx dy).2 * speed) := by
  rcases dir_vector_cases cd₀ dx dy with h | h | h | h | h <;> rw [h]
  · exact stepOk_add a b 0 0 (Or.inl ⟨rfl, rfl⟩)
  · exact stepOk_add a b 0 (-1) (Or.inr (Or.inl ⟨rfl, by norm_num [speed]⟩))
  · exact stepOk_add a b 0 1 (Or.inr (Or.inl ⟨rfl, by norm_num [speed]⟩))
  · exact stepOk_add a b (-1) 0 (Or.inr (Or.inr ⟨rfl, by norm_num [speed]⟩))
  · exact stepOk_add a b 1 0 (Or.inr (Or.inr ⟨rfl, by norm_num [speed]⟩))

theorem start_preserves (sq : ℚ → ℚ) (s : Player) (hinv : PlayerInv sq s) :
    PlayerInv sq (start_drawing sq s) := by
  unfold start_drawing
  by_cases hc : s.drawing = false ∧ is_on_boundary sq s s.x s.y = true
  · rw [if_pos hc]
    refine ⟨hinv.1, fun _ => ⟨by simp, by simp, List.chain'_singleton _, ?_⟩⟩
    intro h hh
    simp only [List.head?_cons, Option.mem_def, Option.some.injEq] at hh
    subst hh
    exact (is_on_boundary_congr sq _ s rfl rfl _ _).trans hc.2
  · rw [if_neg hc]
    exact hinv

theorem stop_preserves (sq : ℚ → ℚ) (s : Player) (hinv : PlayerInv sq s) :
    PlayerInv sq (stop_drawing sq s) := by
  unfold stop_drawing
  by_cases hc : s.drawing = false ∨ s.temp_points.length ≤ 2
  · rw [if_pos hc]
    exact hinv
  · rw [if_neg hc]
    rcases h1 : find_index_in_boundary s.boundary_points (s.temp_points.headD (0, 0)) with
      _ | start_index <;>
      rcases h2 : find_index_in_boundary s.boundary_points (s.temp_points.getLastD (0, 0)) with
        _ | end_index <;>
      simp only [h1, h2]
    · exact ⟨hinv.1, fun hfalse => Bool.noConfusion (show false = true from hfalse)⟩
    · exact ⟨hinv.1, fun hfalse => Bool.noConfusion (show false = true from hfalse)⟩
    · exact ⟨hinv.1, fun hfalse => Bool.noConfusion (show false = true from hfalse)⟩
    · exact ⟨rfl, fun hfalse => Bool.noConfusion (show false = true from hfalse)⟩

theorem move_preserves (sq : ℚ → ℚ) (dx dy : ℚ) (s s2 : Player)
    (hinv : PlayerInv sq s) (hm : move sq dx dy s = some s2) :
    PlayerInv sq s2 := by
  unfold move at hm
  by_cases hd : s.drawing = true
  · rw [if_pos hd] at hm
    simp only at hm
    obtain ⟨hne, hlast, hchain, hhead⟩ := hinv.2 hd
    set cd := updated_direction s.current_direction dx dy with hcd
    set nx := s.x + (dir_vector cd dx dy).1 * speed with hnx
    set ny := s.y + (dir_vector cd dx dy).2 * speed with hny
    set s1 : Player :=
      if is_valid_move sq s nx ny then
        { s with x := nx, y := ny,
                 temp_points := s.temp_points ++ [(nx, ny)],
                 current_direction := cd }
      else { s with current_direction := cd } with hs1
    have hinv1 : PlayerInv sq s1 := by
      rw [hs1]
      by_cases hv : is_valid_move sq s nx ny = true
      · rw [if_pos hv]
        refine ⟨hinv.1, fun _ => ⟨by simp, ?_, ?_, ?_⟩⟩
        · simp [List.getLast?_concat]
        · refine List.chain'_append.2 ⟨hchain, List.chain'_singleton _, ?_⟩
          intro p hp q hq
          simp only [List.head?_cons, Option.mem_def, Option.some.injEq] at hq
          rw [hlast] at hp
          simp only [Option.mem_def, Option.some.injEq] at hp
          subst hp
          subst hq
          exact stepOk_of_dir s.current_direction dx dy s.x s.y
        · intro h hh
          rcases hh' : s.temp_points.head? with _ | p
          · exact absurd (List.head?_eq_none_iff.1 hh') hne
          · simp only [List.head?_append, hh', Option.or_some, Option.mem_def,
              Option.some.injEq] at hh
            subst hh
            exact (is_on_boundary_congr sq _ s rfl rfl _ _).trans (hhead p hh')
      · rw [if_neg hv]
        refine ⟨hinv.1, fun _ => ⟨hne, hlast, hchain, ?_⟩⟩
        intro h hh
        exact (is_on_boundary_congr sq _ s rfl rfl _ _).trans (hhead h hh)
    by_cases hb : is_on_boundary sq s1 nx ny = true
    · rw [if_pos hb] at hm
      rcases hh : s1.temp_points.head? with _ | p0
      · rw [hh] at hm
        exact Option.noConfusion (show (none : Option Player) = some s2 from hm)
      · rw [hh] at hm
        change (if (nx, ny) ≠ p0 then some (stop_drawing sq s1) else some s1) = some s2 at hm
        by_cases hne2 : (nx, ny) ≠ p0
        · rw [if_pos hne2] at hm
          obtain rfl : stop_drawing sq s1 = s2 := by injection hm
          exact stop_preserves sq s1 hinv1
        · rw [if_neg hne2] at hm
          obtain rfl : s1 = s2 := by injection hm
          exact hinv1
    · rw [if_neg hb] at hm
      obtain rfl : s1 = s2 := by injection hm
      exact hinv1
  · rw [if_neg hd] at hm
    simp only at hm
    by_cases hb : is_on_boundary sq s (s.x + dx * speed) (s.y + dy * speed) = true
    · rw [if_pos hb] at hm
      obtain rfl : ({ s with x := s.x + dx * speed, y := s.y + dy * speed } : Player) = s2 := by
        injection hm
      exact ⟨hinv.1, fun h2 => absurd h2 hd⟩
    · rw [if_neg hb] at hm
      obtain rfl : s = s2 := by injection hm
      exact hinv

/-- Every reachable state satisfies the invariant. -/
theorem reachable_inv (sq : ℚ → ℚ) (s : Player) (hr : Reachable sq s) :
    PlayerInv sq s := by
  induction hr with
  | refl => exact ⟨rfl, fun h => by simp [initialPlayer] at h⟩
  | tail hab hbc ih =>
    cases hbc with
    | move dx dy _ _ hdx hdy hm => exact move_preserves sq dx dy _ _ ih hm
    | start _ => exact start_preserves sq _ ih
    | stop _ => exact stop_preserves sq _ ih

/-! ## Claim C6 -/

/-- `(0, 0)` (the initial player position) is on the generated boundary
curve: it is the first point of the top row. -/
theorem zero_mem_boundary : ((0:ℚ), (0:ℚ)) ∈ generate_boundary_points := by
  have h0 : (0:ℕ) ∈ List.range WIDTH := List.mem_range.2 (by norm_num [WIDTH])
  have h1 : ((0:ℚ), (0:ℚ)) ∈ (List.range WIDTH).map (fun x : ℕ => ((x:ℚ), (0:ℚ))) := by
    have h2 := List.mem_map_of_mem (fun x : ℕ => ((x:ℚ), (0:ℚ))) h0
    simp only [Nat.cast_zero] at h2
    exact h2
  unfold generate_boundary_points
  exact List.mem_append_left _ (List.mem_append_left _ (List.mem_append_left _ h1))

theorem is_on_boundary_zero (sq : ℚ → ℚ) (s : Player)
    (hb : s.boundary_points = generate_boundary_points) :
    is_on_boundary sq s 0 0 = true := by
  unfold is_on_boundary
  rw [hb, Bool.or_eq_true]
  refine Or.inl (List.any_eq_true.2 ⟨((0:ℚ), (0:ℚ)), zero_mem_boundary, ?_⟩)
  simp

/-- A drawing `move(0, 0)` with no locked direction appends a duplicate
of the current position to the trace (the player does not move, the
direction stays unset, and the boundary-stop check does not fire because
the new point equals the trace start). -/
theorem move_zero_input (sq : ℚ → ℚ) (s : Player) (hd : s.drawing = true)
    (hcd0 : s.current_direction = none)
    (hob : is_on_boundary sq s s.x s.y = true)
    (hhd : s.temp_points.head? = some (s.x, s.y)) :
    move sq 0 0 s =
      some { s with temp_points := s.temp_points ++ [(s.x, s.y)],
                    current_direction := none } := by
  have hcd : updated_direction s.current_direction 0 0 = none := by
    rw [hcd0]
    unfold updated_direction
    rw [if_neg (by push_neg; exact ⟨rfl, rfl⟩)]
  have harith1 : s.x + (dir_vector none 0 0).1 * speed = s.x := by
    norm_num [dir_vector, speed]
  have harith2 : s.y + (dir_vector none 0 0).2 * speed = s.y := by
    norm_num [dir_vector, speed]
  have hvalid : is_valid_move sq s s.x s.y = true := by
    unfold is_valid_move
    rw [if_pos hob]
  have hob' := hob
  unfold is_on_boundary at hob'
  unfold move
  rw [if_pos hd]
  simp only [hcd, harith1, harith2, hvalid, if_true, is_on_boundary, hob',
    List.head?_append, hhd, Option.or_some, ne_eq, Prod.mk.injEq]
  simp [hcd0]

/-- The state after `start_drawing` from the initial player. -/
def startedPlayer : Player :=
  { x := 0, y := 0, drawing := true, temp_points := [((0:ℚ), (0:ℚ))],
    filled_areas := [], current_direction := none,
    boundary_points := generate_boundary_points }

/-- The state after one further `move(0, 0)`: the trace holds a repeated
point. -/
def stalledPlayer : Player :=
  { x := 0, y := 0, drawing := true,
    temp_points := [((0:ℚ), (0:ℚ)), ((0:ℚ), (0:ℚ))],
    filled_areas := [], current_direction := none,
    boundary_points := generate_boundary_points }

theorem start_step (sq : ℚ → ℚ) :
    start_drawing sq initialPlayer = startedPlayer := by
  unfold start_drawing
  rw [if_pos ⟨rfl, is_on_boundary_zero sq initialPlayer rfl⟩]
  rfl

theorem reachable_started (sq : ℚ → ℚ) : Reachable sq startedPlayer := by
  have h1 : GameStep sq initialPlayer startedPlayer := by
    have h := @GameStep.start sq initialPlayer
    rwa [start_step] at h
  exact Relation.ReflTransGen.single h1

theorem reachable_stalled (sq : ℚ → ℚ) : Reachable sq stalledPlayer := by
  have h2 : GameStep sq startedPlayer stalledPlayer := by
    refine GameStep.move 0 0 _ _ (Or.inl rfl) (Or.inl rfl) ?_
    rw [move_zero_input sq startedPlayer rfl rfl (is_on_boundary_zero sq _ rfl) rfl]
    rfl
  exact Relation.ReflTransGen.tail (reachable_started sq) h2

/-- The claim C6 as stated is false on the zero-step point: from the
initial player, start drawing and then step one frame with no arrow key
pressed; the code appends a duplicate trace point, so consecutive trace
points of a reachable drawing state need not differ by an axis-aligned
step of magnitude 4. -/
theorem c6_counterexample :
    Reachable id stalledPlayer ∧ stalledPlayer.drawing = true ∧
      ¬ (List.Chain' axis4 stalledPlayer.temp_points ∧
          ∀ h ∈ stalledPlayer.temp_points.head?, h ∈ generate_boundary_points) := by
  refine ⟨reachable_stalled id, rfl, ?_⟩
  rintro ⟨hchain, -⟩
  rw [show stalledPlayer.temp_points = [((0:ℚ), (0:ℚ)), ((0:ℚ), (0:ℚ))] from rfl] at hchain
  obtain ⟨hab, -⟩ := List.chain'_cons.1 hchain
  rcases hab with ⟨-, habs⟩ | ⟨-, habs⟩ <;> norm_num at habs

/-- C6 (amended): in every reachable state while drawing, consecutive
trace points are either equal (a zero step, produced by a frame with no
input before any direction is locked) or differ by an axis-aligned step
of magnitude 4 (the player speed); and the first trace point passes the
game's combined boundary test — in particular, while no territory has
been captured it lies on the generated BoundaryCurve. -/
theorem c6_trace_invariant (sq : ℚ → ℚ) (s : Player) (hr : Reachable sq s)
    (hd : s.drawing = true) :
    List.Chain' stepOk s.temp_points ∧
      (∀ h ∈ s.temp_points.head?, is_on_boundary sq s h.1 h.2 = true) ∧
      (s.filled_areas = [] →
        ∀ h ∈ s.temp_points.head?, h ∈ generate_boundary_points) := by
  obtain ⟨hb, hrest⟩ := reachable_inv sq s hr
  obtain ⟨hne, hlast, hchain, hhead⟩ := hrest hd
  refine ⟨hchain, hhead, ?_⟩
  intro hfill h hh
  have hob := hhead h hh
  unfold is_on_boundary at hob
  rw [hfill, hb] at hob
  simp only [List.any_nil, Bool.or_false] at hob
  obtain ⟨q, hq, hdec⟩ := List.any_eq_true.1 hob
  have heq : (h.1, h.2) = q := of_decide_eq_true hdec
  exact (show h = q from heq) ▸ hq

/-- Witness for `c6_trace_invariant` at the reachable state right after
drawing starts. -/
theorem c6_trace_invariant_witness :
    List.Chain' stepOk startedPlayer.temp_points ∧
      (∀ h ∈ startedPlayer.temp_points.head?,
        is_on_boundary id startedPlayer h.1 h.2 = true) ∧
      (startedPlayer.filled_areas = [] →
        ∀ h ∈ startedPlayer.temp_points.head?, h ∈ generate_boundary_points) :=
  c6_trace_invariant id startedPlayer (reachable_started id) rfl

/-! ## Claim C5: geometric analysis of `point_in_polygon`

The convex-polygon/bounding-box properties are proved through a parity
analysis of the toggle count of the ray-casting loop. -/

/-- Twice the signed area of the triangle `a b c` (positive iff the
triple is counter-clockwise). -/
def orient (a b c : Pt) : ℚ :=
  (b.1 - a.1) * (c.2 - a.2) - (b.2 - a.2) * (c.1 - a.1)

/-- Diagonals of a strictly convex (CCW) quadrilateral `a b c d` meet:
there are parameters `t, s ∈ [0,1]` with `a + t(c-a) = b + s(d-b)`. -/
theorem segments_intersect (a b c d : Pt)
    (h1 : 0 < orient a b c) (h2 : 0 < orient a b d)
    (h3 : 0 < orient a c d) (h4 : 0 < orient b c d) :
    ∃ t s : ℚ, 0 ≤ t ∧ t ≤ 1 ∧ 0 ≤ s ∧ s ≤ 1 ∧
      a.1 + t * (c.1 - a.1) = b.1 + s * (d.1 - b.1) ∧
      a.2 + t * (c.2 - a.2) = b.2 + s * (d.2 - b.2) := by
  have hd1 : 0 < orient b d a := by
    rw [show orient b d a = orient a b d from by unfold orient; ring]
    exact h2
  have hd2 : orient b d c < 0 := by
    rw [show orient b d c = -orient b c d from by unfold orient; ring]
    linarith
  have he1 : orient a c b < 0 := by
    rw [show orient a c b = -orient a b c from by unfold orient; ring]
    linarith
  have hDpos : 0 < orient b d a - orient b d c := by linarith
  have hDne : orient b d a - orient b d c ≠ 0 := ne_of_gt hDpos
  have hEneg : orient a c b - orient a c d < 0 := by linarith
  have hEne : orient a c b - orient a c d ≠ 0 := ne_of_lt hEneg
  refine ⟨orient b d a / (orient b d a - orient b d c),
          orient a c b / (orient a c b - orient a c d), ?_, ?_, ?_, ?_, ?_, ?_⟩
  · positivity
  · rw [div_le_one hDpos]
    linarith
  · exact div_nonneg_of_nonpos (le_of_lt he1) (le_of_lt hEneg)
  · exact div_le_one_iff.2 (Or.inr (Or.inr ⟨hEneg, by linarith⟩))
  · unfold orient at hDne hEne ⊢
    field_simp
    ring
  · unfold orient at hDne hEne ⊢
    field_simp
    ring

theorem convex_combo_lt (x y Y s : ℚ) (hs0 : 0 ≤ s) (hs1 : s ≤ 1)
    (hx : x < Y) (hy : y < Y) : x + s * (y - x) < Y := by
  rcases eq_or_lt_of_le hs1 with h | h
  · rw [h]
    linarith
  · have hp1 : 0 < (1 - s) * (Y - x) := mul_pos (by linarith) (by linarith)
    have hp2 : 0 ≤ s * (Y - y) := mul_nonneg hs0 (by linarith)
    nlinarith

theorem convex_combo_ge (x y Y s : ℚ) (hs0 : 0 ≤ s) (hs1 : s ≤ 1)
    (hx : Y ≤ x) (hy : Y ≤ y) : Y ≤ x + s * (y - x) := by
  have hp1 : 0 ≤ (1 - s) * (x - Y) := mul_nonneg (by linarith) (by linarith)
  have hp2 : 0 ≤ s * (y - Y) := mul_nonneg hs0 (by linarith)
  nlinarith

/-- Around a strictly convex quadrilateral `a b c d` (in CCW cyclic
order) the vertices cannot strictly alternate around a horizontal level:
the diagonal of the two high vertices and the diagonal of the two low
vertices would have to cross, but they are separated by the level. -/
theorem no_level_alternation (a b c d : Pt) (Y : ℚ)
    (h1 : 0 < orient a b c) (h2 : 0 < orient a b d)
    (h3 : 0 < orient a c d) (h4 : 0 < orient b c d) :
    ¬ ((Y ≤ a.2 ∧ b.2 < Y ∧ Y ≤ c.2 ∧ d.2 < Y) ∨
       (a.2 < Y ∧ Y ≤ b.2 ∧ c.2 < Y ∧ Y ≤ d.2)) := by
  obtain ⟨t, s, ht0, ht1, hs0, hs1, -, hq2⟩ := segments_intersect a b c d h1 h2 h3 h4
  rintro (⟨ha, hb, hc, hd⟩ | ⟨ha, hb, hc, hd⟩)
  · have hge : Y ≤ a.2 + t * (c.2 - a.2) := convex_combo_ge _ _ _ _ ht0 ht1 ha hc
    have hlt : b.2 + s * (d.2 - b.2) < Y := convex_combo_lt _ _ _ _ hs0 hs1 hb hd
    linarith
  · have hlt : a.2 + t * (c.2 - a.2) < Y := convex_combo_lt _ _ _ _ ht0 ht1 ha hc
    have hge : Y ≤ b.2 + s * (d.2 - b.2) := convex_combo_ge _ _ _ _ hs0 hs1 hb hd
    linarith

/-- For a query point strictly left of the directed edge `a → b`, the
loop toggles exactly on upward crossings of the horizontal level through
the query point. -/
theorem pipToggle_iff_upcross (a b p : Pt) (hcross : 0 < orient a b p) :
    pipToggle p.1 p.2 a b = true ↔ (a.2 < p.2 ∧ p.2 ≤ b.2) := by
  unfold orient at hcross
  constructor
  · intro ht
    obtain ⟨h1, h2, h3, h4⟩ := of_decide_eq_true ht
    by_contra hnot
    have hne : a.2 ≠ b.2 := by
      intro heq
      rw [heq, min_self] at h1
      rw [heq, max_self] at h2
      exact absurd h2 (not_le.2 h1)
    have hdown : b.2 < p.2 ∧ p.2 ≤ a.2 := by
      rcases le_total a.2 b.2 with hab | hab
      · exfalso
        apply hnot
        refine ⟨?_, ?_⟩
        · have h1a := h1
          rwa [min_eq_left hab] at h1a
        · have h2a := h2
          rwa [max_eq_right hab] at h2a
      · refine ⟨?_, ?_⟩
        · have h1a := h1
          rwa [min_eq_right hab] at h1a
        · have h2a := h2
          rwa [max_eq_left hab] at h2a
    obtain ⟨hb2, ha2⟩ := hdown
    have hdy : b.2 - a.2 < 0 := by linarith
    have hne0 : b.2 - a.2 ≠ 0 := ne_of_lt hdy
    rcases h4 with h4 | h4
    · rw [h4, max_self] at h3
      nlinarith
    · have hquot : (p.2 - a.2) * (b.1 - a.1) / (b.2 - a.2) + a.1 - p.1 =
          ((b.1 - a.1) * (p.2 - a.2) - (b.2 - a.2) * (p.1 - a.1)) / (b.2 - a.2) := by
        field_simp
        ring
      have hneg : ((b.1 - a.1) * (p.2 - a.2) - (b.2 - a.2) * (p.1 - a.1)) / (b.2 - a.2) < 0 :=
        div_neg_of_pos_of_neg hcross hdy
      linarith
  · rintro ⟨hup1, hup2⟩
    have hdy : 0 < b.2 - a.2 := by linarith
    have hne0 : b.2 - a.2 ≠ 0 := ne_of_gt hdy
    have hquot : (p.2 - a.2) * (b.1 - a.1) / (b.2 - a.2) + a.1 - p.1 =
        ((b.1 - a.1) * (p.2 - a.2) - (b.2 - a.2) * (p.1 - a.1)) / (b.2 - a.2) := by
      field_simp
      ring
    have hpos : 0 < ((b.1 - a.1) * (p.2 - a.2) - (b.2 - a.2) * (p.1 - a.1)) / (b.2 - a.2) :=
      div_pos hcross hdy
    have hxlt : p.1 < (p.2 - a.2) * (b.1 - a.1) / (b.2 - a.2) + a.1 := by linarith
    have ht0 : 0 < (p.2 - a.2) / (b.2 - a.2) := div_pos (by linarith) hdy
    have ht1 : (p.2 - a.2) / (b.2 - a.2) ≤ 1 := (div_le_one hdy).2 (by linarith)
    have hrw : (p.2 - a.2) * (b.1 - a.1) / (b.2 - a.2) =
        ((p.2 - a.2) / (b.2 - a.2)) * (b.1 - a.1) := by
      ring
    have hxmax : (p.2 - a.2) * (b.1 - a.1) / (b.2 - a.2) + a.1 ≤ max a.1 b.1 := by
      rw [hrw]
      rcases le_total a.1 b.1 with hab | hab
      · rw [max_eq_right hab]
        have hmul : ((p.2 - a.2) / (b.2 - a.2)) * (b.1 - a.1) ≤ 1 * (b.1 - a.1) :=
          mul_le_mul_of_nonneg_right ht1 (by linarith)
        linarith
      · rw [max_eq_left hab]
        have hmul : ((p.2 - a.2) / (b.2 - a.2)) * (b.1 - a.1) ≤ 0 :=
          mul_nonpos_iff.2 (Or.inl ⟨by linarith, by linarith⟩)
        linarith
    refine decide_eq_true ⟨lt_of_le_of_lt (min_le_left _ _) hup1,
      le_trans hup2 (le_max_right _ _), by linarith, Or.inr (by linarith)⟩

/-- For a query point strictly left of both edge endpoints, the loop
toggles exactly on crossings of the horizontal level. -/
theorem pipToggle_iff_levelcross (a b p : Pt) (hxa : p.1 < a.1) (hxb : p.1 < b.1) :
    pipToggle p.1 p.2 a b = true ↔ (min a.2 b.2 < p.2 ∧ p.2 ≤ max a.2 b.2) := by
  constructor
  · intro ht
    obtain ⟨h1, h2, -, -⟩ := of_decide_eq_true ht
    exact ⟨h1, h2⟩
  · rintro ⟨h1, h2⟩
    have hne : a.2 ≠ b.2 := by
      intro heq
      rw [heq, min_self] at h1
      rw [heq, max_self] at h2
      exact absurd h2 (not_le.2 h1)
    have hxmax : p.1 ≤ max a.1 b.1 := le_of_lt (lt_of_lt_of_le hxa (le_max_left _ _))
    by_cases hab : a.1 = b.1
    · exact decide_eq_true ⟨h1, h2, hxmax, Or.inl hab⟩
    · have hkey : min a.1 b.1 ≤ (p.2 - a.2) * (b.1 - a.1) / (b.2 - a.2) + a.1 := by
        rcases hne.lt_or_lt with hlt | hlt
        · have hdy : 0 < b.2 - a.2 := by linarith
          have ht0 : 0 ≤ (p.2 - a.2) / (b.2 - a.2) := by
            apply div_nonneg _ (le_of_lt hdy)
            rw [min_eq_left (le_of_lt hlt)] at h1
            linarith
          have ht1 : (p.2 - a.2) / (b.2 - a.2) ≤ 1 := by
            rw [div_le_one hdy]
            rw [max_eq_right (le_of_lt hlt)] at h2
            linarith
          have hrw : (p.2 - a.2) * (b.1 - a.1) / (b.2 - a.2) =
              ((p.2 - a.2) / (b.2 - a.2)) * (b.1 - a.1) := by ring
          rw [hrw]
          rcases le_total a.1 b.1 with hx | hx
          · have hnn : 0 ≤ ((p.2 - a.2) / (b.2 - a.2)) * (b.1 - a.1) :=
              mul_nonneg ht0 (by linarith)
            calc min a.1 b.1 ≤ a.1 := min_le_left _ _
              _ ≤ _ := by linarith
          · have hge : (b.1 - a.1) ≤ ((p.2 - a.2) / (b.2 - a.2)) * (b.1 - a.1) := by
              nlinarith
            calc min a.1 b.1 ≤ b.1 := min_le_right _ _
              _ ≤ _ := by linarith
        · have hdy : b.2 - a.2 < 0 := by linarith
          have ht0 : 0 ≤ (p.2 - a.2) / (b.2 - a.2) := by
            apply div_nonneg_of_nonpos _ (le_of_lt hdy)
            rw [max_eq_left (le_of_lt hlt)] at h2
            linarith
          have ht1 : (p.2 - a.2) / (b.2 - a.2) ≤ 1 := by
            rw [div_le_one_iff]
            right; right
            refine ⟨hdy, ?_⟩
            rw [min_eq_right (le_of_lt hlt)] at h1
            linarith
          have hrw : (p.2 - a.2) * (b.1 - a.1) / (b.2 - a.2) =
              ((p.2 - a.2) / (b.2 - a.2)) * (b.1 - a.1) := by ring
          rw [hrw]
          rcases le_total a.1 b.1 with hx | hx
          · have hnn : 0 ≤ ((p.2 - a.2) / (b.2 - a.2)) * (b.1 - a.1) :=
              mul_nonneg ht0 (by linarith)
            calc min a.1 b.1 ≤ a.1 := min_le_left _ _
              _ ≤ _ := by linarith
          · have hge : (b.1 - a.1) ≤ ((p.2 - a.2) / (b.2 - a.2)) * (b.1 - a.1) := by
              nlinarith
            calc min a.1 b.1 ≤ b.1 := min_le_right _ _
              _ ≤ _ := by linarith
      have hmin : p.1 < min a.1 b.1 := lt_min hxa hxb
      exact decide_eq_true ⟨h1, h2, hxmax, Or.inr (by linarith)⟩

theorem pipToggle_false_right (a b p : Pt) (hxa : a.1 < p.1) (hxb : b.1 < p.1) :
    pipToggle p.1 p.2 a b = false := by
  apply decide_eq_false
  rintro ⟨-, -, h3, -⟩
  rcases le_total a.1 b.1 with h | h
  · rw [max_eq_right h] at h3
    linarith
  · rw [max_eq_left h] at h3
    linarith

theorem pipToggle_false_above (a b p : Pt) (hya : p.2 ≤ a.2) (hyb : p.2 ≤ b.2) :
    pipToggle p.1 p.2 a b = false := by
  apply decide_eq_false
  rintro ⟨h1, -, -, -⟩
  rcases le_total a.2 b.2 with h | h
  · rw [min_eq_left h] at h1
    linarith
  · rw [min_eq_right h] at h1
    linarith

theorem pipToggle_false_below (a b p : Pt) (hya : a.2 < p.2) (hyb : b.2 < p.2) :
    pipToggle p.1 p.2 a b = false := by
  apply decide_eq_false
  rintro ⟨-, h2, -, -⟩
  rcases le_total a.2 b.2 with h | h
  · rw [max_eq_right h] at h2
    linarith
  · rw [max_eq_left h] at h2
    linarith

/-! ### Counting machinery for the ray-casting loop -/

/-- There is no strictly increasing cyclic chain of rationals. -/
theorem no_cyclic_strict_chain (n : ℕ) [NeZero n] (hn : 0 < n) (g : Fin n → ℚ)
    (h : ∀ i : Fin n, g i < g (i + 1)) : False := by
  have mono : ∀ m : ℕ, ∀ hm : m < n, g ⟨0, hn⟩ ≤ g ⟨m, hm⟩ := by
    intro m
    induction m with
    | zero => intro hm; exact le_refl _
    | succ k ih =>
      intro hm
      have hk : k < n := by omega
      have hstep := h ⟨k, hk⟩
      have heq : (⟨k, hk⟩ + 1 : Fin n) = ⟨k + 1, hm⟩ := by
        apply Fin.ext
        rw [Fin.add_def, Fin.val_one']
        rw [Nat.mod_eq_of_lt (by omega : (1:ℕ) < n)]
        exact Nat.mod_eq_of_lt hm
      rw [heq] at hstep
      exact le_trans (ih hk) (le_of_lt hstep)
  have hlast : n - 1 < n := by omega
  have h1 := mono (n - 1) hlast
  have h2 := h ⟨n - 1, hlast⟩
  have heq : (⟨n - 1, hlast⟩ + 1 : Fin n) = ⟨0, hn⟩ := by
    apply Fin.ext
    rw [Fin.add_def, Fin.val_one']
    by_cases hn1 : n = 1
    · subst hn1
      norm_num
    · rw [Nat.mod_eq_of_lt (by omega : (1:ℕ) < n)]
      have hsum : n - 1 + 1 = n := by omega
      rw [hsum]
      show n % n = 0
      exact Nat.mod_self n
  rw [heq] at h2
  linarith

/-- A cyclic boolean sequence that takes both values has a
false-to-true transition. -/
theorem exists_transition (n : ℕ) [NeZero n] (B : Fin n → Prop) [DecidablePred B]
    (a b : Fin n) (ha : B a) (hb : ¬ B b) : ∃ i, ¬ B i ∧ B (i + 1) := by
  by_contra hno
  push_neg at hno
  have hstep : ∀ m : ℕ, ¬ B (b + (m : Fin n)) := by
    intro m
    induction m with
    | zero => simpa using hb
    | succ k ih =>
      have hc : ((k + 1 : ℕ) : Fin n) = (k : Fin n) + 1 := by push_cast; ring
      rw [hc, ← add_assoc]
      exact fun hB => (hno _ (by simpa using ih)) hB
  have hfin := hstep ((a - b : Fin n)).val
  rw [Fin.cast_val_eq_self] at hfin
  have hsub : b + (a - b) = a := by
    rw [add_comm, sub_add_cancel]
  rw [hsub] at hfin
  exact hfin ha

/-- Folding xor over a list counts parity. -/
theorem foldl_xor_countP {α : Type} (f : α → Bool) (l : List α) :
    ∀ b : Bool, l.foldl (fun acc e => xor acc (f e)) b =
      xor b (decide (Odd (l.countP f))) := by
  induction l with
  | nil => intro b; simp [List.countP_nil]
  | cons a l ih =>
    intro b
    rw [List.foldl_cons, ih, List.countP_cons]
    by_cases hf : f a = true
    · by_cases ho : Odd (l.countP f)
      · simp [hf, ho, Nat.odd_add_one, Bool.xor_assoc]
      · simp [hf, ho, Nat.odd_add_one, Bool.xor_assoc]
    · by_cases ho : Odd (l.countP f)
      · simp [hf, ho]
      · simp [hf, ho]

/-- The `inside` flag of the loop is the xor-fold of the toggles. -/
theorem pipFoldl_inside_xor (x y : ℚ) (edges : List (Pt × Pt)) :
    ∀ s : PipState,
      (edges.foldl (fun s e => pipEdge x y e.1 e.2 s) s).inside =
        edges.foldl (fun b e => xor b (pipToggle x y e.1 e.2)) s.inside := by
  induction edges with
  | nil => intro s; rfl
  | cons e l ih =>
    intro s
    rw [List.foldl_cons, List.foldl_cons, ih, pipEdge_inside]

/-- `point_in_polygon` answers exactly the parity of the number of
toggling edges. -/
theorem point_in_polygon_parity (pt : Pt) (polygon : List Pt) :
    point_in_polygon pt polygon =
      decide (Odd ((polyEdges polygon).countP
        (fun e => pipToggle pt.1 pt.2 e.1 e.2))) := by
  unfold point_in_polygon pipFold
  rw [pipFoldl_inside_xor, foldl_xor_countP]
  simp

/-- The edges the loop visits, for a polygon given as `List.ofFn`. -/
theorem polyEdges_ofFn (n : ℕ) [NeZero n] (v : Fin n → Pt) :
    polyEdges (List.ofFn v) = List.ofFn (fun i : Fin n => (v i, v (i + 1))) := by
  apply List.ext_getElem
  · simp [polyEdges]
  · intro i h1 h2
    have hn : 0 < n := Nat.pos_of_ne_zero (NeZero.ne n)
    have hi : i < n := by simpa [polyEdges] using h1
    simp only [polyEdges, List.getElem_zip, List.getElem_ofFn, List.getElem_rotate]
    refine Prod.ext rfl ?_
    simp only [List.getElem_ofFn]
    congr 1
    apply Fin.ext
    simp only [Fin.add_def, Fin.val_one']
    simp only [List.length_ofFn]
    by_cases h1' : n = 1
    · subst h1'
      omega
    · rw [Nat.mod_eq_of_lt (by omega : (1:ℕ) < n)]

/-- `countP` over `List.ofFn` as a sum over `Fin n`. -/
theorem countP_ofFn {α : Type} (n : ℕ) (g : Fin n → α) (pred : α → Bool) :
    (List.ofFn g).countP pred = ∑ i : Fin n, if pred (g i) then 1 else 0 := by
  induction n with
  | zero => simp
  | succ m ih =>
    rw [List.ofFn_succ, List.countP_cons, ih, Fin.sum_univ_succ]
    by_cases h : pred (g 0) = true
    · simp [h, add_comm]
    · simp [h]

/-- Around a cycle, the number of positions where a predicate changes
value is even. -/
theorem even_boundary_changes (n : ℕ) [NeZero n] (A : Fin n → Prop) [DecidablePred A] :
    Even (∑ i : Fin n, if A i ↔ A (i + 1) then 0 else 1) := by
  have hcast : ((∑ i : Fin n, if A i ↔ A (i + 1) then 0 else 1 : ℕ) : ZMod 2) =
      ∑ i : Fin n, ((if A i then 1 else 0) + (if A (i + 1) then 1 else 0) : ZMod 2) := by
    push_cast
    apply Finset.sum_congr rfl
    intro i _
    by_cases h1 : A i <;> by_cases h2 : A (i + 1) <;> simp [h1, h2] <;> decide
  rw [Finset.sum_add_distrib] at hcast
  have hre : (∑ i : Fin n, (if A (i + 1) then (1 : ZMod 2) else 0)) =
      ∑ i : Fin n, (if A i then (1 : ZMod 2) else 0) :=
    Fintype.sum_equiv (Equiv.addRight (1 : Fin n))
      (fun i => if A (i + 1) then (1 : ZMod 2) else 0)
      (fun i => if A i then (1 : ZMod 2) else 0) (fun i => rfl)
  rw [hre] at hcast
  have hzero : ((∑ i : Fin n, if A i ↔ A (i + 1) then 0 else 1 : ℕ) : ZMod 2) = 0 := by
    rw [hcast]
    have h2 : (2 : ZMod 2) = 0 := rfl
    calc (∑ i : Fin n, (if A i then (1 : ZMod 2) else 0)) +
          ∑ i : Fin n, (if A i then (1 : ZMod 2) else 0) =
        2 * ∑ i : Fin n, (if A i then (1 : ZMod 2) else 0) := by ring
      _ = 0 := by rw [h2]; ring
  have hdvd := (ZMod.natCast_zmod_eq_zero_iff_dvd _ 2).1 hzero
  exact even_iff_two_dvd.2 hdvd

/-! ### A strictly-inside point of a convex ring sees exactly one toggle -/

theorem orient_shift (a b p : Pt) :
    orient a b p = (a.1 - p.1) * (b.2 - p.2) - (a.2 - p.2) * (b.1 - p.1) := by
  unfold orient
  ring

/-- A point strictly left of all edges cannot be above the whole ring. -/
theorem not_all_below (n : ℕ) [NeZero n] (v : Fin n → Pt) (p : Pt)
    (hp : ∀ i, 0 < orient (v i) (v (i + 1)) p) :
    ¬ ∀ i, (v i).2 < p.2 := by
  intro hall
  have hn : 0 < n := Nat.pos_of_ne_zero (NeZero.ne n)
  apply no_cyclic_strict_chain n hn (fun i => ((v i).1 - p.1) / (p.2 - (v i).2))
  intro i
  have hcross := hp i
  rw [orient_shift] at hcross
  have h1 : 0 < p.2 - (v i).2 := by linarith [hall i]
  have h2 : 0 < p.2 - (v (i + 1)).2 := by linarith [hall (i + 1)]
  rw [div_lt_div_iff h1 h2]
  nlinarith [hcross]

/-- A point strictly left of all edges cannot be below the whole ring. -/
theorem not_all_above (n : ℕ) [NeZero n] (v : Fin n → Pt) (p : Pt)
    (hp : ∀ i, 0 < orient (v i) (v (i + 1)) p) :
    ¬ ∀ i, p.2 ≤ (v i).2 := by
  intro hall
  have hn : 0 < n := Nat.pos_of_ne_zero (NeZero.ne n)
  have hstrict : ∀ i, p.2 < (v i).2 := by
    intro i
    rcases lt_or_eq_of_le (hall i) with h | h
    · exact h
    · exfalso
      have hi := hp i
      have him := hp (i - 1)
      rw [sub_add_cancel] at him
      rw [orient_shift] at hi him
      rw [← h] at hi him
      have hc := hall (i - 1)
      have hb := hall (i + 1)
      have hprod1 : ((v (i - 1)).2 - p.2) * ((v i).1 - p.1) < 0 := by nlinarith [him]
      have ha1 : (v i).1 - p.1 < 0 := by
        by_contra hge
        push_neg at hge
        nlinarith [mul_nonneg (by linarith : (0:ℚ) ≤ (v (i - 1)).2 - p.2) hge]
      have hprod2 : 0 < ((v i).1 - p.1) * ((v (i + 1)).2 - p.2) := by nlinarith [hi]
      have hnp : ((v i).1 - p.1) * ((v (i + 1)).2 - p.2) ≤ 0 :=
        mul_nonpos_iff.2 (Or.inr ⟨le_of_lt ha1, by linarith⟩)
      linarith
  apply no_cyclic_strict_chain n hn (fun i => (p.1 - (v i).1) / ((v i).2 - p.2))
  intro i
  have hcross := hp i
  rw [orient_shift] at hcross
  have h1 : 0 < (v i).2 - p.2 := by linarith [hstrict i]
  have h2 : 0 < (v (i + 1)).2 - p.2 := by linarith [hstrict (i + 1)]
  rw [div_lt_div_iff h1 h2]
  nlinarith [hcross]

/-- Ray casting is correct for a point strictly inside a strictly convex
polygon listed counter-clockwise: exactly one edge toggles, so the
answer is `true`. -/
theorem point_in_polygon_convex_ccw (n : ℕ) [NeZero n] (v : Fin n → Pt) (p : Pt)
    (hcc : ∀ a b c : Fin n, a < b → b < c → 0 < orient (v a) (v b) (v c))
    (hp : ∀ i : Fin n, 0 < orient (v i) (v (i + 1)) p) :
    point_in_polygon p (List.ofFn v) = true := by
  have hn : 0 < n := Nat.pos_of_ne_zero (NeZero.ne n)
  have hval : ∀ j : Fin n, j.val + 1 < n → (j + 1).val = j.val + 1 := by
    intro j hj
    rw [Fin.add_def, Fin.val_one']
    rw [Nat.mod_eq_of_lt (by omega : (1:ℕ) < n)]
    exact Nat.mod_eq_of_lt hj
  have hhigh := not_all_below n v p hp
  push_neg at hhigh
  obtain ⟨ia, hia⟩ := hhigh
  have hlow := not_all_above n v p hp
  push_neg at hlow
  obtain ⟨ib, hib⟩ := hlow
  obtain ⟨i0, hi0n, hi0s⟩ :=
    exists_transition n (fun i => p.2 ≤ (v i).2) ia ib hia (not_le.2 hib)
  have key : ∀ j k : Fin n, j.val < k.val →
      ((v j).2 < p.2 ∧ p.2 ≤ (v (j + 1)).2) →
      ((v k).2 < p.2 ∧ p.2 ≤ (v (k + 1)).2) → False := by
    rintro j k hjk ⟨hj1, hj2⟩ ⟨hk1, hk2⟩
    have hkn : k.val < n := k.isLt
    by_cases hjk1 : j + 1 = k
    · rw [hjk1] at hj2
      linarith
    · have hj1v : (j + 1).val = j.val + 1 := hval j (by omega)
      have hlt2 : j.val + 1 < k.val := by
        rcases Nat.lt_or_ge (j.val + 1) k.val with h | h
        · exact h
        · exfalso
          exact hjk1 (Fin.ext (by omega))
      by_cases hklast : k.val + 1 < n
      · have hk1v : (k + 1).val = k.val + 1 := hval k hklast
        have o1 : 0 < orient (v j) (v (j + 1)) (v k) :=
          hcc j (j + 1) k (Fin.lt_def.2 (by omega)) (Fin.lt_def.2 (by omega))
        have o2 : 0 < orient (v j) (v (j + 1)) (v (k + 1)) :=
          hcc j (j + 1) (k + 1) (Fin.lt_def.2 (by omega)) (Fin.lt_def.2 (by omega))
        have o3 : 0 < orient (v j) (v k) (v (k + 1)) :=
          hcc j k (k + 1) (Fin.lt_def.2 (by omega)) (Fin.lt_def.2 (by omega))
        have o4 : 0 < orient (v (j + 1)) (v k) (v (k + 1)) :=
          hcc (j + 1) k (k + 1) (Fin.lt_def.2 (by omega)) (Fin.lt_def.2 (by omega))
        exact no_level_alternation (v j) (v (j + 1)) (v k) (v (k + 1)) p.2
          o1 o2 o3 o4 (Or.inr ⟨hj1, hj2, hk1, hk2⟩)
      · have hk0 : (k + 1).val = 0 := by
          rw [Fin.add_def, Fin.val_one']
          by_cases hn1 : n = 1
          · omega
          · rw [Nat.mod_eq_of_lt (by omega : (1:ℕ) < n)]
            have hkv : k.val + 1 = n := by omega
            rw [hkv]
            show n % n = 0
            exact Nat.mod_self n
        by_cases hj0 : j.val = 0
        · have hkj : k + 1 = j := Fin.ext (by omega)
          rw [hkj] at hk2
          linarith
        · have o1 : 0 < orient (v (k + 1)) (v j) (v (j + 1)) :=
            hcc (k + 1) j (j + 1) (Fin.lt_def.2 (by omega)) (Fin.lt_def.2 (by omega))
          have o2 : 0 < orient (v (k + 1)) (v j) (v k) :=
            hcc (k + 1) j k (Fin.lt_def.2 (by omega)) (Fin.lt_def.2 (by omega))
          have o3 : 0 < orient (v (k + 1)) (v (j + 1)) (v k) :=
            hcc (k + 1) (j + 1) k (Fin.lt_def.2 (by omega)) (Fin.lt_def.2 (by omega))
          have o4 : 0 < orient (v j) (v (j + 1)) (v k) :=
            hcc j (j + 1) k (Fin.lt_def.2 (by omega)) (Fin.lt_def.2 (by omega))
          exact no_level_alternation (v (k + 1)) (v j) (v (j + 1)) (v k) p.2
            o1 o2 o3 o4 (Or.inl ⟨hk2, hj1, hj2, hk1⟩)
  have huniq : ∀ j : Fin n, ((v j).2 < p.2 ∧ p.2 ≤ (v (j + 1)).2) → j = i0 := by
    intro j hj
    have hi0' : (v i0).2 < p.2 ∧ p.2 ≤ (v (i0 + 1)).2 := ⟨not_le.1 hi0n, hi0s⟩
    rcases lt_trichotomy j.val i0.val with h | h | h
    · exact (key j i0 h hj hi0').elim
    · exact Fin.ext h
    · exact (key i0 j h hi0' hj).elim
  rw [point_in_polygon_parity, polyEdges_ofFn, countP_ofFn]
  have hcong : ∀ i : Fin n,
      (if pipToggle p.1 p.2 (v i) (v (i + 1)) = true then 1 else 0) =
        (if i = i0 then 1 else 0) := by
    intro i
    refine if_congr ?_ rfl rfl
    rw [pipToggle_iff_upcross _ _ _ (hp i)]
    constructor
    · intro h
      exact huniq i h
    · intro h
      subst h
      exact ⟨not_le.1 hi0n, hi0s⟩
  have hsum : (∑ i : Fin n,
      if pipToggle p.1 p.2 (v i) (v (i + 1)) = true then 1 else 0) = 1 := by
    rw [Finset.sum_congr rfl (fun i _ => hcong i)]
    rw [Finset.sum_ite_eq' Finset.univ i0 (fun _ => 1)]
    simp
  rw [show (∑ i : Fin n,
      if (fun e : Pt × Pt => pipToggle p.1 p.2 e.1 e.2)
        ((fun i : Fin n => (v i, v (i + 1))) i) = true then 1 else 0) =
      (∑ i : Fin n,
        if pipToggle p.1 p.2 (v i) (v (i + 1)) = true then 1 else 0) from rfl]
  rw [hsum]
  decide

/-! ### Clockwise rings and points outside the bounding box -/

/-- The toggle decision is symmetric in the edge endpoints (the crossing
abscissa is the same from either end, and the guards are symmetric). -/
theorem pipToggle_prop_swap (x y : ℚ) (a b : Pt)
    (h : y > min a.2 b.2 ∧ y ≤ max a.2 b.2 ∧ x ≤ max a.1 b.1 ∧
      (a.1 = b.1 ∨ x ≤ (y - a.2) * (b.1 - a.1) / (b.2 - a.2) + a.1)) :
    y > min b.2 a.2 ∧ y ≤ max b.2 a.2 ∧ x ≤ max b.1 a.1 ∧
      (b.1 = a.1 ∨ x ≤ (y - b.2) * (a.1 - b.1) / (a.2 - b.2) + b.1) := by
  obtain ⟨h1, h2, h3, h4⟩ := h
  have hne : a.2 ≠ b.2 := by
    intro heq
    rw [heq, min_self] at h1
    rw [heq, max_self] at h2
    exact absurd h2 (not_le.2 h1)
  refine ⟨by rwa [min_comm], by rwa [max_comm], by rwa [max_comm], ?_⟩
  rcases h4 with h4 | h4
  · exact Or.inl h4.symm
  · right
    have h0 : b.2 - a.2 ≠ 0 := sub_ne_zero.2 (Ne.symm hne)
    have h0' : a.2 - b.2 ≠ 0 := sub_ne_zero.2 hne
    have hswap : (y - a.2) * (b.1 - a.1) / (b.2 - a.2) + a.1 =
        (y - b.2) * (a.1 - b.1) / (a.2 - b.2) + b.1 := by
      field_simp
      ring
    rwa [hswap] at h4

theorem pipToggle_swap (x y : ℚ) (a b : Pt) :
    pipToggle x y a b = pipToggle x y b a := by
  unfold pipToggle
  rw [decide_eq_decide]
  exact ⟨pipToggle_prop_swap x y a b, pipToggle_prop_swap x y b a⟩

/-- Ray casting is also correct for a strictly convex polygon listed
clockwise: reversing the ring gives a counter-clockwise ring traversing
the same edges. -/
theorem point_in_polygon_convex_cw (n : ℕ) [NeZero n] (v : Fin n → Pt) (p : Pt)
    (hcc : ∀ a b c : Fin n, a < b → b < c → orient (v a) (v b) (v c) < 0)
    (hp : ∀ i : Fin n, orient (v i) (v (i + 1)) p < 0) :
    point_in_polygon p (List.ofFn v) = true := by
  have hn : 0 < n := Nat.pos_of_ne_zero (NeZero.ne n)
  set lastF : Fin n := ⟨n - 1, by omega⟩ with hlastF
  set r : Fin n → Fin n := fun i => lastF - i with hrdef
  set w : Fin n → Pt := fun i => v (r i) with hwdef
  have hrval : ∀ i : Fin n, (r i).val = n - 1 - i.val := by
    intro i
    show ((lastF - i : Fin n)).val = n - 1 - i.val
    rw [Fin.sub_def]
    show ((n - i.val) + (n - 1)) % n = n - 1 - i.val
    have hi := i.isLt
    have hsum : (n - i.val) + (n - 1) = n + (n - 1 - i.val) := by omega
    rw [hsum, Nat.add_mod_left]
    exact Nat.mod_eq_of_lt (by omega)
  have hr1 : ∀ i : Fin n, r (i + 1) = r i - 1 := by
    intro i
    show lastF - (i + 1) = lastF - i - 1
    rw [sub_add_eq_sub_sub]
  have hccw : ∀ a b c : Fin n, a < b → b < c → 0 < orient (w a) (w b) (w c) := by
    intro a b c hab hbc
    have hab' := Fin.lt_def.1 hab
    have hbc' := Fin.lt_def.1 hbc
    have hc := c.isLt
    have hlt1 : (r c).val < (r b).val := by
      rw [hrval, hrval]
      omega
    have hlt2 : (r b).val < (r a).val := by
      rw [hrval, hrval]
      omega
    have hneg := hcc (r c) (r b) (r a) (Fin.lt_def.2 hlt1) (Fin.lt_def.2 hlt2)
    have hsw : orient (v (r a)) (v (r b)) (v (r c)) =
        -orient (v (r c)) (v (r b)) (v (r a)) := by
      unfold orient
      ring
    show 0 < orient (v (r a)) (v (r b)) (v (r c))
    rw [hsw]
    linarith
  have hpw : ∀ i : Fin n, 0 < orient (w i) (w (i + 1)) p := by
    intro i
    have hstep := hp (r i - 1)
    rw [sub_add_cancel] at hstep
    have hsw : orient (v (r i)) (v (r i - 1)) p =
        -orient (v (r i - 1)) (v (r i)) p := by
      unfold orient
      ring
    show 0 < orient (v (r i)) (w (i + 1)) p
    show 0 < orient (v (r i)) (v (r (i + 1))) p
    rw [hr1 i, hsw]
    linarith
  have htrue := point_in_polygon_convex_ccw n w p hccw hpw
  rw [point_in_polygon_parity, polyEdges_ofFn, countP_ofFn] at htrue ⊢
  have hbeta : ∀ u : Fin n → Pt,
      (∑ i : Fin n, if (fun e : Pt × Pt => pipToggle p.1 p.2 e.1 e.2)
          ((fun i : Fin n => (u i, u (i + 1))) i) = true then 1 else 0) =
      ∑ i : Fin n, if pipToggle p.1 p.2 (u i) (u (i + 1)) = true then 1 else 0 :=
    fun u => rfl
  rw [hbeta w] at htrue
  rw [hbeta v]
  have hs1 : (∑ i : Fin n, if pipToggle p.1 p.2 (w i) (w (i + 1)) = true then 1 else 0) =
      ∑ j : Fin n, if pipToggle p.1 p.2 (v j) (v (j - 1)) = true then 1 else 0 := by
    apply Fintype.sum_equiv (Equiv.subLeft lastF)
    intro i
    show (if pipToggle p.1 p.2 (v (r i)) (v (r (i + 1))) = true then 1 else 0) = _
    rw [hr1 i]
    rfl
  have hs2 : (∑ k : Fin n, if pipToggle p.1 p.2 (v (k + 1)) (v k) = true then 1 else 0) =
      ∑ j : Fin n, if pipToggle p.1 p.2 (v j) (v (j - 1)) = true then 1 else 0 := by
    apply Fintype.sum_equiv (Equiv.addRight (1 : Fin n))
    intro k
    show _ = (if pipToggle p.1 p.2 (v (k + 1)) (v (k + 1 - 1)) = true then 1 else 0)
    rw [add_sub_cancel_right]
  have hfinal : (∑ i : Fin n, if pipToggle p.1 p.2 (v i) (v (i + 1)) = true then 1 else 0) =
      ∑ i : Fin n, if pipToggle p.1 p.2 (w i) (w (i + 1)) = true then 1 else 0 := by
    calc (∑ i : Fin n, if pipToggle p.1 p.2 (v i) (v (i + 1)) = true then 1 else 0) =
        ∑ k : Fin n, if pipToggle p.1 p.2 (v (k + 1)) (v k) = true then 1 else 0 :=
          Finset.sum_congr rfl (fun k _ => by rw [pipToggle_swap])
      _ = ∑ j : Fin n, if pipToggle p.1 p.2 (v j) (v (j - 1)) = true then 1 else 0 := hs2
      _ = _ := hs1.symm
  rw [hfinal]
  exact htrue

/-- A level crossing of the ray at height `p.2` happens exactly when the
half-plane test `p.2 ≤ ·` changes value between the two endpoints. -/
theorem levelcross_iff_change (a b p : Pt) :
    (min a.2 b.2 < p.2 ∧ p.2 ≤ max a.2 b.2) ↔ ¬((p.2 ≤ a.2) ↔ (p.2 ≤ b.2)) := by
  constructor
  · rintro ⟨h1, h2⟩ hiff
    by_cases ha : p.2 ≤ a.2
    · have hb := hiff.1 ha
      exact absurd h1 (not_lt.2 (le_min ha hb))
    · have hb : ¬ p.2 ≤ b.2 := fun hb => ha (hiff.2 hb)
      push_neg at ha hb
      exact absurd h2 (not_le.2 (max_lt ha hb))
  · intro hne
    by_cases ha : p.2 ≤ a.2
    · have hb : ¬ p.2 ≤ b.2 := fun hb => hne ⟨fun _ => hb, fun _ => ha⟩
      push_neg at hb
      exact ⟨lt_of_le_of_lt (min_le_right _ _) hb, le_trans ha (le_max_left _ _)⟩
    · have hb : p.2 ≤ b.2 := by
        by_contra hb
        exact hne ⟨fun hx => absurd hx ha, fun hx => absurd hx hb⟩
      push_neg at ha
      exact ⟨lt_of_le_of_lt (min_le_left _ _) ha, le_trans hb (le_max_right _ _)⟩

/-- Ray casting returns `false` for every point strictly outside the
axis-aligned bounding box of the polygon's vertices. -/
theorem point_in_polygon_outside_bbox (p : Pt) (poly : List Pt)
    (h : (∀ q ∈ poly, p.1 < q.1) ∨ (∀ q ∈ poly, q.1 < p.1) ∨
         (∀ q ∈ poly, p.2 < q.2) ∨ (∀ q ∈ poly, q.2 < p.2)) :
    point_in_polygon p poly = false := by
  rcases h with h | h | h | h
  · -- strictly left of the box: crossings pair up, so their count is even
    by_cases hnil : poly = []
    · rw [hnil]
      rfl
    · haveI : NeZero poly.length := ⟨fun hl => hnil (List.length_eq_zero.1 hl)⟩
      have hedges : polyEdges poly =
          List.ofFn (fun i : Fin poly.length => (poly.get i, poly.get (i + 1))) := by
        conv_lhs => rw [← List.ofFn_get poly]
        exact polyEdges_ofFn poly.length poly.get
      rw [point_in_polygon_parity, hedges, countP_ofFn]
      have hsummand : ∀ i : Fin poly.length,
          (if pipToggle p.1 p.2 (poly.get i) (poly.get (i + 1)) = true then 1 else 0) =
          (if (p.2 ≤ (poly.get i).2 ↔ p.2 ≤ (poly.get (i + 1)).2) then 0 else 1) := by
        intro i
        have hcross := pipToggle_iff_levelcross (poly.get i) (poly.get (i + 1)) p
          (h _ (List.get_mem poly i.1 i.2)) (h _ (List.get_mem poly (i + 1).1 (i + 1).2))
        rw [levelcross_iff_change] at hcross
        by_cases hc : (p.2 ≤ (poly.get i).2 ↔ p.2 ≤ (poly.get (i + 1)).2)
        · rw [if_pos hc, if_neg (fun ht => (hcross.1 ht) hc)]
        · rw [if_neg hc, if_pos (hcross.2 hc)]
      have hconv : (∑ i : Fin poly.length,
          if pipToggle p.1 p.2 (poly.get i) (poly.get (i + 1)) = true then 1 else 0) =
          ∑ i : Fin poly.length,
            if (p.2 ≤ (poly.get i).2 ↔ p.2 ≤ (poly.get (i + 1)).2) then 0 else 1 :=
        Finset.sum_congr rfl (fun i _ => hsummand i)
      rw [hconv]
      exact decide_eq_false (Nat.not_odd_iff_even.2
        (even_boundary_changes poly.length (fun i : Fin poly.length => p.2 ≤ (poly.get i).2)))
  · rw [point_in_polygon_parity]
    have hzero : (polyEdges poly).countP (fun e => pipToggle p.1 p.2 e.1 e.2) = 0 := by
      apply List.countP_eq_zero.2
      intro e he
      unfold polyEdges at he
      have hmem := List.of_mem_zip he
      show ¬ pipToggle p.1 p.2 e.1 e.2 = true
      rw [pipToggle_false_right e.1 e.2 p (h _ hmem.1) (h _ (List.mem_rotate.1 hmem.2))]
      exact Bool.false_ne_true
    rw [hzero]
    decide
  · rw [point_in_polygon_parity]
    have hzero : (polyEdges poly).countP (fun e => pipToggle p.1 p.2 e.1 e.2) = 0 := by
      apply List.countP_eq_zero.2
      intro e he
      unfold polyEdges at he
      have hmem := List.of_mem_zip he
      show ¬ pipToggle p.1 p.2 e.1 e.2 = true
      rw [pipToggle_false_above e.1 e.2 p (le_of_lt (h _ hmem.1))
        (le_of_lt (h _ (List.mem_rotate.1 hmem.2)))]
      exact Bool.false_ne_true
    rw [hzero]
    decide
  · rw [point_in_polygon_parity]
    have hzero : (polyEdges poly).countP (fun e => pipToggle p.1 p.2 e.1 e.2) = 0 := by
      apply List.countP_eq_zero.2
      intro e he
      unfold polyEdges at he
      have hmem := List.of_mem_zip he
      show ¬ pipToggle p.1 p.2 e.1 e.2 = true
      rw [pipToggle_false_below e.1 e.2 p (h _ hmem.1) (h _ (List.mem_rotate.1 hmem.2))]
      exact Bool.false_ne_true
    rw [hzero]
    decide

/-- A concrete strictly convex (counter-clockwise) triangle used to
instantiate the convexity theorem. -/
def triVerts : Fin 3 → Pt := fun i =>
  if i.val = 0 then ((0 : ℚ), (0 : ℚ)) else if i.val = 1 then (4, 0) else (0, 4)

theorem tri_ofFn : List.ofFn triVerts = [((0 : ℚ), (0 : ℚ)), (4, 0), (0, 4)] := by
  simp [List.ofFn_succ, triVerts]

theorem tri_hcc : ∀ a b c : Fin 3, a < b → b < c →
    0 < orient (triVerts a) (triVerts b) (triVerts c) := by
  intro a b c hab hbc
  fin_cases a <;> fin_cases b <;> fin_cases c <;> simp_all [triVerts, orient]

theorem tri_hp : ∀ i : Fin 3,
    0 < orient (triVerts i) (triVerts (i + 1)) ((1 : ℚ), (1 : ℚ)) := by
  intro i
  fin_cases i <;> norm_num [triVerts, orient, Fin.add_def]

/-- C5: for every convex polygon given as an ordered vertex ring — at least
three vertices in strictly convex position, listed counter-clockwise (all
ordered triples positively oriented) or clockwise (all negatively
oriented) — and every point strictly inside it (strictly on the interior
side of every directed edge), `point_in_polygon` returns `true`; and for
every polygon and every point strictly outside the polygon's axis-aligned
bounding box, `point_in_polygon` returns `false`. -/
theorem c5_convex_inside_and_bbox :
    (∀ (n : ℕ) (v : Fin (n + 3) → Pt) (p : Pt),
      (((∀ a b c : Fin (n + 3), a < b → b < c → 0 < orient (v a) (v b) (v c)) ∧
          (∀ i : Fin (n + 3), 0 < orient (v i) (v (i + 1)) p)) ∨
        ((∀ a b c : Fin (n + 3), a < b → b < c → orient (v a) (v b) (v c) < 0) ∧
          (∀ i : Fin (n + 3), orient (v i) (v (i + 1)) p < 0))) →
      point_in_polygon p (List.ofFn v) = true) ∧
    (∀ (p : Pt) (poly : List Pt),
      ((∀ q ∈ poly, p.1 < q.1) ∨ (∀ q ∈ poly, q.1 < p.1) ∨
       (∀ q ∈ poly, p.2 < q.2) ∨ (∀ q ∈ poly, q.2 < p.2)) →
      point_in_polygon p poly = false) := by
  constructor
  · intro n v p h
    rcases h with ⟨hcc, hp⟩ | ⟨hcc, hp⟩
    · exact point_in_polygon_convex_ccw (n + 3) v p hcc hp
    · exact point_in_polygon_convex_cw (n + 3) v p hcc hp
  · exact point_in_polygon_outside_bbox

/-- The convexity theorem evaluated at a concrete triangle with an interior
point, and at a concrete point strictly left of the triangle's box. -/
theorem c5_convex_inside_and_bbox_witness :
    point_in_polygon ((1 : ℚ), (1 : ℚ)) [((0 : ℚ), (0 : ℚ)), (4, 0), (0, 4)] = true ∧
    point_in_polygon ((-1 : ℚ), (1 : ℚ)) [((0 : ℚ), (0 : ℚ)), (4, 0), (0, 4)] = false := by
  constructor
  · rw [← tri_ofFn]
    exact c5_convex_inside_and_bbox.1 0 triVerts (1, 1) (Or.inl ⟨tri_hcc, tri_hp⟩)
  · refine c5_convex_inside_and_bbox.2 (-1, 1) _ (Or.inl ?_)
    intro q hq
    fin_cases hq <;> norm_num

end PyxGame
